import Mathlib

/-!
Verification of the ophelia repository's content pipeline and search service.

Strings of the Go source are modelled as `List Char` (rune sequences; all
concrete inputs used are ASCII, where Go's byte length and rune length agree).
Float64 arithmetic of the relevance scorer and backoff computation is modelled
exactly over `ℚ`; on all values reached by these computations the Go float64
arithmetic is exact, so the models agree with the code.
-/

/-- Convert a Lean string literal to the `List Char` model of Go strings. -/
def strL (s : String) : List Char := s.data

/-- Character class of Go's regexp `\s`, i.e. `[\t\n\f\r ]`. -/
def isWSre (c : Char) : Bool :=
  c == ' ' || c == '\t' || c == '\n' || c == '\x0c' || c == '\r'

/-- Character class of Go's `unicode.IsSpace` restricted to Latin-1
(ASCII whitespace plus NEL and NBSP), as used by `strings.TrimSpace` and
`strings.Fields`. -/
def isSpaceGo (c : Char) : Bool :=
  c == ' ' || c == '\t' || c == '\n' || c == '\x0b' || c == '\x0c' || c == '\r'
    || c == '\x85' || c == '\xa0'

/-- Sentence terminators `[.!?]` used by the chunker and readability scorer. -/
def isTermC (c : Char) : Bool := c == '.' || c == '!' || c == '?'

/-- Go's `strings.TrimSpace` on the rune model: drop leading and trailing
whitespace. -/
def trimGo (l : List Char) : List Char :=
  (l.dropWhile isSpaceGo).rdropWhile isSpaceGo

/-- Helper shared by the splitters: prepend a character to the first part. -/
def headCons (c : Char) : List (List Char) → List (List Char)
  | [] => [[c]]
  | p :: ps => (c :: p) :: ps

/-- Join parts with a separator, the model of `strings.Join` and of
rebuilding a `strings.Builder` accumulation. -/
def joinSep (sep : List Char) : List (List Char) → List Char
  | [] => []
  | [p] => p
  | p :: q :: ps => p ++ sep ++ joinSep sep (q :: ps)

/-- Go's `strings.Split(s, sep)` for a one-character separator. -/
def splitChar (sep : Char) : List Char → List (List Char)
  | [] => [[]]
  | c :: rest => if c = sep then [] :: splitChar sep rest else headCons c (splitChar sep rest)

/-- Go's `strings.Split(s, "\n\n")`: split at non-overlapping occurrences of
two consecutive newlines, scanning left to right. -/
def splitSeps : List Char → List (List Char)
  | [] => [[]]
  | [c] => [[c]]
  | c :: d :: rest =>
    if c = '\n' ∧ d = '\n' then [] :: splitSeps rest
    else headCons c (splitSeps (d :: rest))

/-- Does `s` start with `pat`? Model of a prefix test on Go strings. -/
def startsWithL : List Char → List Char → Bool
  | _, [] => true
  | [], _ :: _ => false
  | c :: s, p :: ps => c == p && startsWithL s ps

/-- Go's `strings.Contains(s, pat)`: substring test. -/
def containsSub : List Char → List Char → Bool
  | [], pat => startsWithL [] pat
  | c :: t, pat => startsWithL (c :: t) pat || containsSub t pat

/-- Decimal digit character. -/
def digitChar (n : Nat) : Char := Char.ofNat (48 + n)

/-- Fuel-driven digit accumulation for `natStr`. -/
def natStrGo : Nat → Nat → List Char → List Char
  | 0, _, acc => acc
  | fuel + 1, n, acc => if n = 0 then acc else natStrGo fuel (n / 10) (digitChar (n % 10) :: acc)

/-- Model of Go's `fmt` `%d` for a nonnegative integer. -/
def natStr (n : Nat) : List Char := if n = 0 then ['0'] else natStrGo (n + 1) n []

-- ## Generic retry orchestrator (`retryOperation`, service.go)

/-- Error wrapping of `fmt.Errorf("operation failed after %d retries: %w", maxRetries, err)`. -/
def wrapRetryErr (maxRetries : Nat) (e : List Char) : List Char :=
  strL ("operation failed after ") ++ natStr maxRetries ++ strL (" retries: ") ++ e

/-- One execution of the `retryOperation` loop from `attempt` on, with `fuel`
iterations remaining (`fuel = maxRetries + 1 - attempt` at the entry point).
The operation is modelled as a map from the attempt index to an optional error.
Returns the final result together with the number of invocations performed.
The fuel-exhausted case corresponds to the unreachable `return nil` after the
Go loop. Context cancellation is not modelled (a non-cancelled context is
assumed, as in the claims). -/
def retryAux (op : Nat → Option (List Char)) (maxRetries : Nat) :
    Nat → Nat → Option (List Char) × Nat
  | _, 0 => (none, 0)
  | attempt, fuel + 1 =>
    match op attempt with
    | none => (none, 1)
    | some e =>
      if attempt = maxRetries then (some (wrapRetryErr maxRetries e), 1)
      else
        let r := retryAux op maxRetries (attempt + 1) fuel
        (r.1, r.2 + 1)

/-- `retryOperation` of the alchemyst client: run the operation for attempts
`0 .. maxRetries`, stopping at the first success; on the last failed attempt
return the wrapped error. Both revisions of the client instantiate
`maxRetries` from `DefaultRetryConfig` (3 in one revision, 4 in the other);
the loop is identical, so it is modelled generically in `maxRetries`. -/
def retryOperation (maxRetries : Nat) (op : Nat → Option (List Char)) :
    Option (List Char) × Nat :=
  retryAux op maxRetries 0 (maxRetries + 1)

-- ## Upload pipeline with collision rename (`AddContextWithRetry`, service.go)

/-- Retry configuration of the alchemyst client. Delays are rationals in
nanoseconds, the exact values of the Go `time.Duration` float computation. -/
structure RetryConfig where
  maxRetries : Nat
  baseDelay : ℚ
  maxDelay : ℚ

/-- `DefaultRetryConfig` of the collision-renaming client revision:
`MaxRetries: 4, BaseDelay: 2s, MaxDelay: 15s`. -/
def DefaultRetryConfig : RetryConfig :=
  { maxRetries := 4, baseDelay := 2000000000, maxDelay := 15000000000 }

/-- Backoff delay before the next attempt:
`float64(BaseDelay) * math.Pow(1.5, attempt)`, capped at `MaxDelay`. On the
attempts reachable with the default config the float64 computation is exact,
so the rational model agrees with the code. -/
def backoffDelay (cfg : RetryConfig) (attempt : Nat) : ℚ :=
  let d := cfg.baseDelay * (3 / 2 : ℚ) ^ attempt
  if cfg.maxDelay < d then cfg.maxDelay else d

/-- Document payload of an add-context request (models.go). -/
structure Document where
  content : List Char
  fileName : List Char
  fileType : List Char
  fileSize : Int
  lastModified : List Char
deriving DecidableEq

/-- Add-context request (models.go); the opaque metadata field is omitted as
it is never read or written by the retry loop. -/
structure AddContextRequest where
  documents : List Document
  source : List Char
  contextType : List Char
  scope : List Char
deriving DecidableEq

/-- The client's test for a file-name conflict response:
`strings.Contains(err, "File name already exists") || strings.Contains(err, "BAD_REQUEST")`. -/
def conflictErr (e : List Char) : Bool :=
  containsSub e (strL ("File name already exists")) || containsSub e (strL ("BAD_REQUEST"))

/-- Go's `strings.TrimSuffix(n, ".txt")`. -/
def trimTxtSuffix (n : List Char) : List Char :=
  if (strL (".txt")).isSuffixOf n then n.take (n.length - 4) else n

/-- File-name mutation applied on a conflict:
`fmt.Sprintf("%s-retry%d-%s.txt", strings.TrimSuffix(old, ".txt"), attempt+1, timestamp)`
written into the first document, if any. -/
def renameDoc (req : AddContextRequest) (attempt : Nat) (tsv : List Char) :
    AddContextRequest :=
  match req.documents with
  | [] => req
  | d :: ds =>
    { req with documents :=
        { d with fileName :=
            trimTxtSuffix d.fileName ++ strL ("-retry") ++ natStr (attempt + 1)
              ++ strL ("-") ++ tsv ++ strL (".txt") } :: ds }

/-- The `AddContextWithRetry` loop body from `attempt` on with `fuel`
iterations remaining. The provider (`c.AddContext`) is modelled as a map from
the attempt index and the current request to an optional error, and the
wall-clock timestamp read on a conflict as a map from the attempt index to a
string. Returns the final result, the trace of requests passed to the
provider (one per invocation), and the list of backoff delays waited. -/
def addWithRetryAux (cfg : RetryConfig)
    (provider : Nat → AddContextRequest → Option (List Char))
    (ts : Nat → List Char) :
    Nat → Nat → AddContextRequest → Option (List Char) × List AddContextRequest × List ℚ
  | _, 0, _ => (none, [], [])
  | attempt, fuel + 1, req =>
    match provider attempt req with
    | none => (none, [req], [])
    | some e =>
      let req2 := if conflictErr e then renameDoc req attempt (ts attempt) else req
      if attempt = cfg.maxRetries then (some (wrapRetryErr cfg.maxRetries e), [req], [])
      else
        let r := addWithRetryAux cfg provider ts (attempt + 1) fuel req2
        (r.1, req :: r.2.1, backoffDelay cfg attempt :: r.2.2)

/-- `AddContextWithRetry` of the collision-renaming client revision: run the
provider for attempts `0 .. MaxRetries` with the default config, renaming the
first document's file on conflict errors. -/
def AddContextWithRetry (provider : Nat → AddContextRequest → Option (List Char))
    (ts : Nat → List Char) (req : AddContextRequest) :
    Option (List Char) × List AddContextRequest × List ℚ :=
  addWithRetryAux DefaultRetryConfig provider ts 0 (DefaultRetryConfig.maxRetries + 1) req

/-- File name of a request's first document (the one the rename mutates). -/
def fileNameOf (req : AddContextRequest) : List Char :=
  match req.documents with
  | [] => []
  | d :: _ => d.fileName

/-- Sample document used to instantiate the retry theorems. -/
def sampleDoc : Document :=
  { content := strL ("c"), fileName := strL ("Pacman.txt"),
    fileType := strL ("text/plain"), fileSize := 1, lastModified := strL ("t") }

/-- Sample request used to instantiate the retry theorems. -/
def sampleReq : AddContextRequest :=
  { documents := [sampleDoc],
    source := strL ("arch-wiki/Pacman"), contextType := strL ("resource"),
    scope := strL ("internal") }

-- ## Query preprocessing (`preprocessQuery`, search.go)

/-- ASCII lower-casing, the model of `strings.ToLower` on the inputs used. -/
def toLowerGo (c : Char) : Char :=
  if 'A' ≤ c ∧ c ≤ 'Z' then Char.ofNat (c.toNat + 32) else c

/-- Character class of Go's regexp `\w`: `[0-9A-Za-z_]`. -/
def isWordC (c : Char) : Bool :=
  ('a' ≤ c && c ≤ 'z') || ('A' ≤ c && c ≤ 'Z') || ('0' ≤ c && c ≤ '9') || c == '_'

/-- Decimal digit test, Go's regexp `\d`. -/
def isDigitC (c : Char) : Bool := '0' ≤ c && c ≤ '9'

/-- Lowercase ASCII letter test, Go's regexp `[a-z]`. -/
def isLowerC (c : Char) : Bool := 'a' ≤ c && c ≤ 'z'

/-- Maximal runs of non-separator characters (model of `strings.FieldsFunc`;
with `isSpaceGo` it is `strings.Fields`). The first component of the
accumulator is the run currently being built at the front. -/
def fieldsAux (p : Char → Bool) : List Char → List Char × List (List Char)
  | [] => ([], [])
  | c :: rest =>
    let r := fieldsAux p rest
    if p c then ([], if r.1.isEmpty then r.2 else r.1 :: r.2)
    else (c :: r.1, r.2)

/-- Fields of a string: maximal runs of characters not satisfying `p`. -/
def fieldsF (p : Char → Bool) (l : List Char) : List (List Char) :=
  if (fieldsAux p l).1.isEmpty then (fieldsAux p l).2
  else (fieldsAux p l).1 :: (fieldsAux p l).2

/-- The apostrophe character, kept out of string literals. -/
def apos : Char := Char.ofNat 39

/-- The noise-word list of `preprocessQuery` (search.go). -/
def noiseWords : List (List Char) :=
  [strL ("please"), strL ("help"), strL ("how"), strL ("do"), strL ("i"), strL ("can"),
   strL ("you"), strL ("me"), strL ("my"), strL ("the"), strL ("a"), strL ("an"),
   strL ("is"), strL ("are"), strL ("was"), strL ("were"), strL ("be"), strL ("been"),
   strL ("being"), strL ("have"), strL ("has"), strL ("had"), strL ("will"), strL ("would"),
   strL ("could"), strL ("should"), strL ("may"), strL ("might"), strL ("must"), strL ("shall"),
   strL ("does"), strL ("did"),
   strL ("don") ++ [apos] ++ strL ("t"), strL ("doesn") ++ [apos] ++ strL ("t"),
   strL ("won") ++ [apos] ++ strL ("t"), strL ("wouldn") ++ [apos] ++ strL ("t"),
   strL ("couldn") ++ [apos] ++ strL ("t"), strL ("shouldn") ++ [apos] ++ strL ("t"),
   strL ("mustn") ++ [apos] ++ strL ("t"), strL ("shan") ++ [apos] ++ strL ("t"),
   strL ("didn") ++ [apos] ++ strL ("t")]

/-- The technical-pattern list of `isTechnicalTerm` (search.go). -/
def technicalPatterns : List (List Char) :=
  [strL ("pacman"), strL ("systemd"), strL ("grub"), strL ("xorg"), strL ("wayland"),
   strL ("networkmanager"), strL ("bluetooth"), strL ("audio"), strL ("pulseaudio"),
   strL ("alsa"), strL ("nvidia"), strL ("amd"), strL ("kernel"), strL ("module"),
   strL ("service"), strL ("unit"), strL ("mount"), strL ("fstab"), strL ("aur"),
   strL ("makepkg"), strL ("pkgbuild"), strL ("dependency"), strL ("conflict")]

/-- Punctuation stripping of `preprocessQuery`:
`regexp [^\w\-\.\/\:] → ""` keeps word characters plus `-`, `.`, `/`, `:`. -/
def cleanWord (w : List Char) : List Char :=
  w.filter (fun c => isWordC c || c == '-' || c == '.' || c == '/' || c == ':')

/-- Full match of the command-like pattern `^[a-z]+(-[a-z]+)*$`: nonempty
lowercase groups separated by single hyphens. -/
def cmdLikePattern (w : List Char) : Bool :=
  (splitChar '-' w).all (fun p => !p.isEmpty && p.all isLowerC)

/-- `isTechnicalTerm` (search.go): contains a known Arch-ecosystem keyword,
contains a digit, or is command-like of length above two. -/
def isTechnicalTerm (w : List Char) : Bool :=
  technicalPatterns.any (fun p => containsSub w p)
    || w.any isDigitC
    || (cmdLikePattern w && decide (2 < w.length))

/-- `preprocessQuery` (search.go): lower-case, split into fields, strip
punctuation from each word, drop empty results, keep a word unless it is a
noise word that is not a technical term, and rejoin with single spaces. -/
def preprocessQuery (query : List Char) : List Char :=
  let words := fieldsF isSpaceGo (query.map toLowerGo)
  let filtered := words.filterMap (fun w =>
    let cleaned := cleanWord w
    if cleaned.isEmpty then none
    else if !(noiseWords.any (fun nw => cleaned == nw)) || isTechnicalTerm cleaned then
      some cleaned
    else none)
  joinSep [' '] filtered

/-- A query of `n` copies of the stop-word "i" separated by single spaces. -/
def iRep (n : Nat) : List Char := joinSep [' '] (List.replicate n ['i'])

-- ## Seeder page ordering (`SeedContent`, cmd/seed/main.go)

/-- Static catalog entry for a wiki page (cmd/seed/main.go). -/
structure WikiPageConfig where
  title : List Char
  url : List Char
  priority : Int
  sections : List (List Char)
deriving DecidableEq

/-- One pass of the inner loop of the seeder's sort for a fixed outer index:
scan the tail, swapping the running head with any strictly higher-priority
element met. Returns the final head and the transformed tail. -/
def passMax (h : WikiPageConfig) : List WikiPageConfig → WikiPageConfig × List WikiPageConfig
  | [] => (h, [])
  | x :: xs =>
    if h.priority < x.priority then
      let r := passMax x xs
      (r.1, h :: r.2)
    else
      let r := passMax h xs
      (r.1, x :: r.2)

/-- The seeder's double-loop exchange sort, one outer iteration per fuel unit. -/
def exchangeSortGo : Nat → List WikiPageConfig → List WikiPageConfig
  | 0, l => l
  | _ + 1, [] => []
  | fuel + 1, a :: rest =>
    let r := passMax a rest
    r.1 :: exchangeSortGo fuel r.2

/-- The sort performed by `SeedContent`:
`if pages[i].Priority < pages[j].Priority { swap }` over all `i < j`. -/
def exchangeSort (l : List WikiPageConfig) : List WikiPageConfig :=
  exchangeSortGo l.length l

/-- The page order processed by `SeedContent`: sort by descending priority,
then truncate when a positive page limit below the page count is set. -/
def seedOrder (catalog : List WikiPageConfig) (pageLimit : Int) : List WikiPageConfig :=
  let pages := exchangeSort catalog
  if 0 < pageLimit ∧ pageLimit < (pages.length : Int) then pages.take pageLimit.toNat
  else pages

/-- Concrete catalog pages instantiating the ordering theorems. -/
def pageA : WikiPageConfig :=
  { title := strL ("a"), url := [], priority := 2, sections := [] }

/-- Second tied-priority page of the concrete catalog. -/
def pageB : WikiPageConfig :=
  { title := strL ("b"), url := [], priority := 2, sections := [] }

/-- Highest-priority page of the concrete catalog. -/
def pageC : WikiPageConfig :=
  { title := strL ("c"), url := [], priority := 3, sections := [] }

-- ## Readability scoring (`CountWords`, `CalculateReadability`, processor.go)

/-- Character class of Go's `unicode.IsPunct` restricted to ASCII (category P:
Po, Ps, Pe, Pd, Pc characters of the ASCII range). -/
def isPunctGo (c : Char) : Bool :=
  c == '!' || c == '"' || c == '#' || c == '%' || c == '&' || c == apos ||
    c == '(' || c == ')' || c == '*' || c == ',' || c == '-' || c == '.' ||
    c == '/' || c == ':' || c == ';' || c == '?' || c == '@' || c == '[' ||
    c == '\\' || c == ']' || c == '_' || c == '\x7b' || c == '\x7d'

/-- `CountWords` (processor.go): split on whitespace and punctuation with
`strings.FieldsFunc`, count the fields whose trimmed length exceeds one. -/
def CountWords (text : List Char) : Nat :=
  if text = [] then 0
  else ((fieldsF (fun c => isSpaceGo c || isPunctGo c) text).filter
    (fun w => 1 < (trimGo w).length)).length

/-- Go's `regexp [.!?]+ .Split(text, -1)`: split at maximal runs of sentence
terminators. -/
def splitTerms : List Char → List (List Char)
  | [] => [[]]
  | [c] => if isTermC c then [[], []] else [[c]]
  | c :: d :: rest =>
    if isTermC c then
      if isTermC d then splitTerms (d :: rest)
      else [] :: splitTerms (d :: rest)
    else headCons c (splitTerms (d :: rest))

/-- `CalculateReadability` (processor.go): `100 - int(avgWordsPerSentence*2)`
clamped to `[0, 100]`, with a 0 for empty input and a 50 for a zero sentence
count. The float truncation `int(2w/s)` equals natural division here. -/
def CalculateReadability (text : List Char) : Int :=
  if text = [] then 0
  else
    let wordCount := CountWords text
    let sentenceCount := (splitTerms text).length
    if sentenceCount = 0 then 50
    else
      let score : Int := 100 - Int.ofNat (2 * wordCount / sentenceCount)
      if score < 0 then 0 else if 100 < score then 100 else score

-- ## Relevance scoring and result ranking (search.go)

/-- The error-vocabulary list of `calculateRelevanceScore` (search.go). -/
def errorTerms : List (List Char) :=
  [strL ("error"), strL ("failed"), strL ("failure"), strL ("problem"),
   strL ("issue"), strL ("trouble"), strL ("cannot"),
   strL ("can") ++ [apos] ++ strL ("t"), strL ("unable"), strL ("not working"),
   strL ("broken"), strL ("fix"), strL ("solve"), strL ("solution"),
   strL ("troubleshoot"), strL ("debug")]

/-- The solution-vocabulary list of `calculateRelevanceScore` (search.go). -/
def solutionTerms : List (List Char) :=
  [strL ("install"), strL ("configure"), strL ("setup"), strL ("enable"),
   strL ("disable"), strL ("restart"), strL ("reload"), strL ("update"),
   strL ("upgrade"), strL ("downgrade"), strL ("edit"), strL ("modify"),
   strL ("change"), strL ("add"), strL ("remove")]

/-- One vocabulary pass of the scorer: add `inc` for each term contained in
the lowered content (the `for term := range terms` loop of the scorer). -/
def addBoost (lower : List Char) (inc : ℚ) : List (List Char) → ℚ → ℚ
  | [], score => score
  | t :: ts, score => addBoost lower inc ts (if containsSub lower t then score + inc else score)

/-- `calculateRelevanceScore` (search.go): 0.5 base, +0.1 per contained error
term, +0.1 per contained solution term, +0.2 if a command indicator appears,
capped at 1.0. The float64 arithmetic agrees with this exact model on all
reachable values. -/
def calculateRelevanceScore (contextData : List Char) : ℚ :=
  let contextLower := contextData.map toLowerGo
  let s1 := addBoost contextLower (1 / 10) errorTerms (1 / 2)
  let s2 := addBoost contextLower (1 / 10) solutionTerms s1
  let s3 :=
    if containsSub contextLower (strL ("sudo"))
        || containsSub contextLower (strL ("pacman"))
        || containsSub contextLower (strL ("systemctl")) then s2 + 1 / 5
    else s2
  if 1 < s3 then 1 else s3

/-- `determineRelevance` (search.go): thresholds 0.8 and 0.6. -/
def determineRelevance (score : ℚ) : List Char :=
  if 4 / 5 ≤ score then strL ("high")
  else if 3 / 5 ≤ score then strL ("medium")
  else strL ("low")

/-- Raw provider hit (alchemyst models.go `SearchResult`). -/
structure AlchemystSearchResult where
  contextID : List Char
  contextData : List Char
deriving DecidableEq

/-- The service's own result model (models.SearchResult fields used by the
search service). -/
structure SearchResult where
  contextID : List Char
  title : List Char
  content : List Char
  url : List Char
  score : ℚ
  relevance : List Char
deriving DecidableEq

/-- Go's `strings.TrimPrefix`. -/
def trimPrefixL (pre s : List Char) : List Char :=
  if startsWithL s pre then s.drop pre.length else s

/-- ASCII alphanumeric test. -/
def isAlphaNumC (c : Char) : Bool :=
  ('a' ≤ c && c ≤ 'z') || ('A' ≤ c && c ≤ 'Z') || ('0' ≤ c && c ≤ '9')

/-- Uppercase hexadecimal digit. -/
def hexDigitC (n : Nat) : Char :=
  if n < 10 then Char.ofNat (48 + n) else Char.ofNat (55 + n)

/-- One character of Go's `url.QueryEscape` on the ASCII model: unreserved
characters kept, space to `+`, the rest percent-encoded. -/
def encChar (c : Char) : List Char :=
  if isAlphaNumC c || c == '-' || c == '_' || c == '.' || c == '~' then [c]
  else if c == ' ' then ['+']
  else ['%', hexDigitC (c.toNat / 16 % 16), hexDigitC (c.toNat % 16)]

/-- Go's `url.QueryEscape` on the ASCII model. -/
def queryEscape (s : List Char) : List Char := (s.map encChar).flatten

/-- `parseContextData` (search.go): derive title, truncated content and wiki
URL from a provider hit. -/
def parseContextData (contextData contextID : List Char) :
    List Char × List Char × List Char :=
  let wikiPre := strL ("arch-wiki/")
  let title :=
    if containsSub contextID wikiPre then
      (trimPrefixL wikiPre contextID).map (fun c => if c = '_' then ' ' else c)
    else strL ("Arch Linux Documentation")
  let content0 := trimGo contextData
  let content :=
    if 500 < content0.length then content0.take 500 ++ strL ("...") else content0
  let url :=
    if containsSub contextID wikiPre then
      strL ("https://wiki.archlinux.org/title/") ++ queryEscape (trimPrefixL wikiPre contextID)
    else strL ("https://wiki.archlinux.org/")
  (title, content, url)

/-- `convertAlchemystResults` (search.go): build a `SearchResult` per
provider hit, scoring its context data. -/
def convertAlchemystResults (rs : List AlchemystSearchResult) : List SearchResult :=
  rs.map (fun r =>
    { contextID := r.contextID,
      title := (parseContextData r.contextData r.contextID).1,
      content := (parseContextData r.contextData r.contextID).2.1,
      url := (parseContextData r.contextData r.contextID).2.2,
      score := calculateRelevanceScore r.contextData,
      relevance := determineRelevance (calculateRelevanceScore r.contextData) })

/-- Go's `regexp \W+ .Split(query, -1)`: split at maximal runs of non-word
characters. -/
def splitNonWord : List Char → List (List Char)
  | [] => [[]]
  | [c] => if isWordC c then [[c]] else [[], []]
  | c :: d :: rest =>
    if isWordC c then headCons c (splitNonWord (d :: rest))
    else if isWordC d then [] :: splitNonWord (d :: rest)
    else splitNonWord (d :: rest)

/-- `extractImportantWords` (search.go): lowered, trimmed words of length
above two that pass the technical-term test. -/
def extractImportantWords (query : List Char) : List (List Char) :=
  (splitNonWord query).filterMap (fun w =>
    let w2 := trimGo (w.map toLowerGo)
    if 2 < w2.length && isTechnicalTerm w2 then some w2 else none)

/-- `containsQueryKeywords` (search.go): true when no important query word
exists, else when some important word occurs in the lowered title+content. -/
def containsQueryKeywords (r : SearchResult) (query : List Char) : Bool :=
  let queryWords := extractImportantWords query
  if queryWords.isEmpty then true
  else
    let resultText := (r.title ++ [' '] ++ r.content).map toLowerGo
    queryWords.any (fun w => containsSub resultText (w.map toLowerGo))

/-- Insertion step of the score-descending sort. -/
def insertByScore (r : SearchResult) : List SearchResult → List SearchResult
  | [] => [r]
  | x :: xs => if x.score < r.score then r :: x :: xs else x :: insertByScore r xs

/-- Deterministic model of `sort.Slice` by descending score. -/
def sortByScore : List SearchResult → List SearchResult
  | [] => []
  | r :: rs => insertByScore r (sortByScore rs)

/-- `filterAndRankResults` (search.go): drop results with short content, with
a score below 0.3, or without a query keyword; sort survivors by score. -/
def filterAndRankResults (results : List SearchResult) (originalQuery : List Char) :
    List SearchResult :=
  sortByScore (results.filter (fun r =>
    decide (50 ≤ r.content.length) && !decide (r.score < 3 / 10)
      && containsQueryKeywords r originalQuery))

/-- Modelled for comparison with the claim: `filterAndRankResults` with the
score-floor branch removed; the claim is that on converted results the floor
never drops anything, i.e. both definitions agree there. -/
def filterAndRankResultsNoFloor (results : List SearchResult) (originalQuery : List Char) :
    List SearchResult :=
  sortByScore (results.filter (fun r =>
    decide (50 ≤ r.content.length) && containsQueryKeywords r originalQuery))

/-- Sample provider hit instantiating the scoring theorems. -/
def sampleHit : AlchemystSearchResult :=
  { contextID := strL ("arch-wiki/Pacman"), contextData := strL ("some text") }

-- ## Content chunking (`SplitIntoChunks`, `splitBySentences`, processor.go)

/-- Non-whitespace content of a string (`unicode.IsSpace` characters removed);
the reconstruction claim for the chunker is stated through it. -/
def nonWS (l : List Char) : List Char := l.filter (fun c => !isSpaceGo c)

/-- Greedy packing shared by the two chunking loops (processor.go): trim each
part, skip empty ones, flush the current chunk when appending would exceed
`maxSize`, join parts inside a chunk with `sep`, and trim flushed chunks. -/
def packWith (sep : List Char) (maxSize : Nat) : List (List Char) → List Char → List (List Char)
  | [], cur => if cur = [] then [] else [trimGo cur]
  | p :: ps, cur =>
    let p1 := trimGo p
    if p1 = [] then packWith sep maxSize ps cur
    else if 0 < cur.length ∧ maxSize < cur.length + p1.length + 2 then
      trimGo cur :: packWith sep maxSize ps p1
    else if cur = [] then packWith sep maxSize ps p1
    else packWith sep maxSize ps (cur ++ sep ++ p1)

/-- Fuel-driven scan for Go's `regexp [.!?]+\s+ .Split(text, -1)`: split where
a maximal run of sentence terminators is followed by whitespace, consuming the
terminators and the whitespace run. -/
def splitSentGo : Nat → List Char → List (List Char)
  | 0, l => [l]
  | _ + 1, [] => [[]]
  | fuel + 1, c :: rest =>
    if isTermC c then
      match rest.dropWhile isTermC with
      | d :: r2 =>
        if isWSre d then [] :: splitSentGo fuel (r2.dropWhile isWSre)
        else headCons c (splitSentGo fuel rest)
      | [] => headCons c (splitSentGo fuel rest)
    else headCons c (splitSentGo fuel rest)

/-- Sentence split of `splitBySentences`: `regexp [.!?]+\s+ .Split(text, -1)`. -/
def splitSent (l : List Char) : List (List Char) := splitSentGo l.length l

/-- `splitBySentences` (processor.go): greedy packing of the sentence split
with the joiner ". ". -/
def splitBySentences (text : List Char) (maxSize : Nat) : List (List Char) :=
  packWith (strL (". ")) maxSize (splitSent text) []

/-- The intermediate `chunks` value of `SplitIntoChunks`: greedy packing of
the paragraph split (on "\n\n") with the joiner "\n\n". -/
def paraChunks (content : List Char) (maxChunkSize : Nat) : List (List Char) :=
  packWith (strL ("\n\n")) maxChunkSize (splitSeps content) []

/-- `SplitIntoChunks` (processor.go): return short content whole; otherwise
pack paragraphs greedily and split any oversized chunk by sentences. -/
def SplitIntoChunks (content : List Char) (maxChunkSize : Nat) : List (List Char) :=
  if content.length ≤ maxChunkSize then [content]
  else
    (paraChunks content maxChunkSize).flatMap (fun chunk =>
      if chunk.length ≤ maxChunkSize then [chunk]
      else splitBySentences chunk maxChunkSize)

-- ## Content cleaning (`CleanContent`, processor.go)

/-- Scan to just past the first `>`, if any; `none` when no `>` remains.
Used to model the leftmost match of the tag regexp `<[^>]*>`. -/
def dropToGt : List Char → Option (List Char)
  | [] => none
  | c :: rest => if c = '>' then some rest else dropToGt rest

/-- Fuel-driven model of `regexp <[^>]*> .ReplaceAllString(content, "")`:
at each `<`, the leftmost match extends to the first following `>`. -/
def stripTagsGo : Nat → List Char → List Char
  | 0, l => l
  | _ + 1, [] => []
  | fuel + 1, c :: rest =>
    if c = '<' then
      match dropToGt rest with
      | some rest2 => stripTagsGo fuel rest2
      | none => c :: stripTagsGo fuel rest
    else c :: stripTagsGo fuel rest

/-- HTML tag stripping of `CleanContent`. -/
def stripTags (l : List Char) : List Char := stripTagsGo l.length l

/-- Square-bracket character class of `strings.Trim(link, "[]")`. -/
def isBracketC (c : Char) : Bool := c == '[' || c == ']'

/-- Go's `strings.Trim(link, "[]")`. -/
def trimBrackets (l : List Char) : List Char :=
  (l.dropWhile isBracketC).rdropWhile isBracketC

/-- The wiki-link replacement function of `CleanContent`: trim brackets,
split on `|`, return the second part when present, else the first. -/
def linkRepl (m : List Char) : List Char :=
  match splitChar '|' (trimBrackets m) with
  | [] => []
  | [p] => p
  | _ :: q :: _ => q

/-- Fuel-driven model of
`regexp \[\[[^\]]*\]\] .ReplaceAllStringFunc(content, linkRepl)`: at each
`[[`, the match takes the maximal run of non-`]` characters followed by
`]]`; on failure the scan resumes one character later. -/
def resolveLinksGo : Nat → List Char → List Char
  | 0, l => l
  | _ + 1, [] => []
  | fuel + 1, c :: rest =>
    if c = '[' then
      match rest with
      | '[' :: rest2 =>
        (match rest2.dropWhile (fun d => !(d == ']')) with
         | ']' :: ']' :: rest3 =>
           linkRepl ('[' :: '[' ::
               (rest2.takeWhile (fun d => !(d == ']')) ++ [']', ']'])) ++
             resolveLinksGo fuel rest3
         | _ => '[' :: resolveLinksGo fuel ('[' :: rest2))
      | _ => c :: resolveLinksGo fuel rest
    else c :: resolveLinksGo fuel rest

/-- Wiki-link resolution of `CleanContent`. -/
def resolveLinks (l : List Char) : List Char := resolveLinksGo l.length l

/-- Go's `regexp \s+ .ReplaceAllString(content, " ")`: collapse each maximal
whitespace run into one space. -/
def collapseWS : List Char → List Char
  | [] => []
  | [c] => if isWSre c then [' '] else [c]
  | c :: d :: rest =>
    if isWSre c then
      if isWSre d then collapseWS (d :: rest)
      else ' ' :: collapseWS (d :: rest)
    else c :: collapseWS (d :: rest)

/-- The blank-line capping loop of `CleanContent`: trim each line, keep at
most two consecutive empty lines, reset the counter on content. -/
def processLines : List (List Char) → Nat → List (List Char)
  | [], _ => []
  | l :: ls, empties =>
    let l2 := trimGo l
    if l2 = [] then
      if empties + 1 ≤ 2 then [] :: processLines ls (empties + 1)
      else processLines ls (empties + 1)
    else l2 :: processLines ls 0

/-- `CleanContent` (processor.go): strip tags, resolve wiki links, collapse
whitespace, cap blank lines, and trim. -/
def CleanContent (content : List Char) : List Char :=
  let c1 := stripTags content
  let c2 := resolveLinks c1
  let c3 := collapseWS c2
  trimGo (joinSep ['\n'] (processLines (splitChar '\n' c3) 0))

/-- Whitespace characters (of the collapse class) in `l` are plain spaces. -/
def wsOnlySpace (l : List Char) : Prop := ∀ c ∈ l, isWSre c = true → c = ' '

/-- No two adjacent characters of `l` are both collapse-class whitespace. -/
def noAdjWS : List Char → Prop
  | [] => True
  | [_] => True
  | c :: d :: rest => ¬(isWSre c = true ∧ isWSre d = true) ∧ noAdjWS (d :: rest)

-- ## Library lemmas about the string utilities

theorem startsWithL_append (p y : List Char) : startsWithL (p ++ y) p = true := by
  induction p with
  | nil => simp [startsWithL]
  | cons c ps ih => simpa [startsWithL] using ih

theorem containsSub_nil_pat (l : List Char) : containsSub l [] = true := by
  cases l <;> simp [containsSub, startsWithL]

theorem containsSub_append_middle (x p y : List Char) :
    containsSub (x ++ (p ++ y)) p = true := by
  induction x with
  | nil =>
    cases p with
    | nil => simpa using containsSub_nil_pat y
    | cons c ps =>
      have h := startsWithL_append (c :: ps) y
      simp only [List.cons_append] at h
      simp [containsSub, h]
  | cons c xs ih => simp [containsSub, ih]

-- ## Lemmas about the retry orchestrator

theorem retryAux_success (op : Nat → Option (List Char)) (maxRetries : Nat)
    (N : Nat) :
    ∀ (attempt fuel : Nat), attempt + fuel = maxRetries + 1 → N < fuel →
    (∀ i, i < N → op (attempt + i) ≠ none) → op (attempt + N) = none →
    retryAux op maxRetries attempt fuel = (none, N + 1) := by
  induction N with
  | zero =>
    intro attempt fuel hsum hlt hfail hsucc
    obtain ⟨f, rfl⟩ : ∃ f, fuel = f + 1 := ⟨fuel - 1, by omega⟩
    have h0 : op attempt = none := by simpa using hsucc
    simp [retryAux, h0]
  | succ N ih =>
    intro attempt fuel hsum hlt hfail hsucc
    obtain ⟨f, rfl⟩ : ∃ f, fuel = f + 1 := ⟨fuel - 1, by omega⟩
    obtain ⟨e, he⟩ : ∃ e, op attempt = some e := by
      have := hfail 0 (by omega)
      cases h : op attempt with
      | none => exact absurd (by simpa using h) (by simpa using this)
      | some e => exact ⟨e, rfl⟩
    have hne : attempt ≠ maxRetries := by omega
    have hrec : retryAux op maxRetries (attempt + 1) f = (none, N + 1) := by
      refine ih (attempt + 1) f (by omega) (by omega) ?_ ?_
      · intro i hi
        have := hfail (i + 1) (by omega)
        simpa [Nat.add_comm, Nat.add_assoc, Nat.add_left_comm] using this
      · simpa [Nat.add_comm, Nat.add_assoc, Nat.add_left_comm] using hsucc
    simp [retryAux, he, hne, hrec]

theorem retryAux_allfail (op : Nat → Option (List Char)) (maxRetries : Nat)
    (hop : ∀ i, op i ≠ none) :
    ∀ (fuel attempt : Nat), attempt + fuel = maxRetries + 1 → 0 < fuel →
    ∃ e, op maxRetries = some e ∧
      retryAux op maxRetries attempt fuel = (some (wrapRetryErr maxRetries e), fuel) := by
  intro fuel
  induction fuel with
  | zero => intro attempt _ h; omega
  | succ f ih =>
    intro attempt hsum _
    obtain ⟨e, he⟩ : ∃ e, op attempt = some e := by
      cases h : op attempt with
      | none => exact absurd h (hop attempt)
      | some e => exact ⟨e, rfl⟩
    rcases Nat.eq_zero_or_pos f with hf | hf
    · subst hf
      have hat : attempt = maxRetries := by omega
      subst hat
      exact ⟨e, he, by simp [retryAux, he]⟩
    · have hne : attempt ≠ maxRetries := by omega
      obtain ⟨e2, he2, hrec⟩ := ih (attempt + 1) (by omega) hf
      exact ⟨e2, he2, by simp [retryAux, he, hne, hrec]⟩

/-- C1: if the operation wrapped by `retryOperation` fails `N` times and then
succeeds, with `N` below the attempt budget, the wrapper returns success and
the operation ran exactly `N + 1` times; if the operation fails on every
invocation, the wrapper runs it exactly `maxRetries + 1` times and returns a
wrapped error whose message mentions the retry count. -/
theorem retryOperation_spec :
    (∀ (maxRetries : Nat) (op : Nat → Option (List Char)) (N : Nat),
      N < maxRetries + 1 →
      (∀ i, i < N → op i ≠ none) →
      op N = none →
      retryOperation maxRetries op = (none, N + 1))
    ∧
    (∀ (maxRetries : Nat) (op : Nat → Option (List Char)),
      (∀ i, op i ≠ none) →
      (retryOperation maxRetries op).2 = maxRetries + 1 ∧
      ∃ e, op maxRetries = some e ∧
        (retryOperation maxRetries op).1 = some (wrapRetryErr maxRetries e) ∧
        containsSub (wrapRetryErr maxRetries e) (natStr maxRetries) = true) := by
  constructor
  · intro maxRetries op N hN hfail hsucc
    have := retryAux_success op maxRetries N 0 (maxRetries + 1) (by omega) (by omega)
      (by simpa using hfail) (by simpa using hsucc)
    simpa [retryOperation] using this
  · intro maxRetries op hop
    obtain ⟨e, he, hrun⟩ := retryAux_allfail op maxRetries hop (maxRetries + 1) 0 (by omega) (by omega)
    refine ⟨by simp [retryOperation, hrun], e, he, by simp [retryOperation, hrun], ?_⟩
    have : wrapRetryErr maxRetries e =
        strL ("operation failed after ") ++ (natStr maxRetries ++ (strL (" retries: ") ++ e)) := by
      simp [wrapRetryErr]
    rw [this]
    exact containsSub_append_middle _ _ _

/-- Witness for C1 at concrete operations: one that fails once then succeeds
(two invocations, success) and one that always fails (four invocations with
the default `maxRetries = 3` of the first client revision). -/
theorem retryOperation_spec_witness :
    retryOperation 3 (fun i => if i = 0 then some (strL ("x")) else none) = (none, 2) ∧
    (retryOperation 3 (fun _ => some (strL ("b")))).2 = 4 := by
  constructor
  · exact retryOperation_spec.1 3 _ 1 (by decide) (by decide) (by decide)
  · exact (retryOperation_spec.2 3 _ (fun i => by simp)).1

-- ## Lemmas about the collision-renaming upload loop

theorem natStrGo_len (fuel : Nat) : ∀ (n : Nat) (acc : List Char),
    acc.length ≤ (natStrGo fuel n acc).length := by
  induction fuel with
  | zero => intro n acc; simp [natStrGo]
  | succ f ih =>
    intro n acc
    by_cases h : n = 0
    · simp [natStrGo, h]
    · calc acc.length ≤ (digitChar (n % 10) :: acc).length := by simp
        _ ≤ _ := by simpa [natStrGo, h] using ih (n / 10) (digitChar (n % 10) :: acc)

theorem natStr_len_pos (n : Nat) : 1 ≤ (natStr n).length := by
  by_cases h : n = 0
  · simp [natStr, h]
  · obtain ⟨m, rfl⟩ : ∃ m, n = m + 1 := ⟨n - 1, by omega⟩
    have h3 : natStr (m + 1) = natStrGo (m + 1) ((m + 1) / 10) [digitChar ((m + 1) % 10)] := by
      simp [natStr, natStrGo]
    rw [h3]
    calc 1 = ([digitChar ((m + 1) % 10)] : List Char).length := by simp
      _ ≤ _ := natStrGo_len (m + 1) ((m + 1) / 10) [digitChar ((m + 1) % 10)]

theorem trimTxtSuffix_len (n : List Char) : n.length - 4 ≤ (trimTxtSuffix n).length := by
  by_cases h : (strL (".txt")).isSuffixOf n
  · simp [trimTxtSuffix, h]
  · simp [trimTxtSuffix, h]

theorem renameDoc_fileName_len (req : AddContextRequest) (attempt : Nat) (tsv : List Char)
    (h : req.documents ≠ []) :
    (fileNameOf req).length < (fileNameOf (renameDoc req attempt tsv)).length := by
  match hd : req.documents with
  | [] => exact absurd hd h
  | d :: ds =>
    have h1 := trimTxtSuffix_len d.fileName
    have h2 := natStr_len_pos (attempt + 1)
    simp [renameDoc, fileNameOf, hd, strL]
    omega

theorem renameDoc_documents_ne (req : AddContextRequest) (attempt : Nat) (tsv : List Char)
    (h : req.documents ≠ []) : (renameDoc req attempt tsv).documents ≠ [] := by
  match hd : req.documents with
  | [] => exact absurd hd h
  | d :: ds => simp [renameDoc, hd]

theorem addAux_zero (cfg : RetryConfig)
    (provider : Nat → AddContextRequest → Option (List Char)) (ts : Nat → List Char)
    (attempt : Nat) (req : AddContextRequest) :
    addWithRetryAux cfg provider ts attempt 0 req = (none, [], []) := rfl

theorem addAux_none (cfg : RetryConfig)
    (provider : Nat → AddContextRequest → Option (List Char)) (ts : Nat → List Char)
    (attempt f : Nat) (req : AddContextRequest)
    (he : provider attempt req = none) :
    addWithRetryAux cfg provider ts attempt (f + 1) req = (none, [req], []) := by
  simp [addWithRetryAux, he]

theorem addAux_last (cfg : RetryConfig)
    (provider : Nat → AddContextRequest → Option (List Char)) (ts : Nat → List Char)
    (f : Nat) (req : AddContextRequest) (e : List Char)
    (he : provider cfg.maxRetries req = some e) :
    addWithRetryAux cfg provider ts cfg.maxRetries (f + 1) req =
      (some (wrapRetryErr cfg.maxRetries e), [req], []) := by
  simp [addWithRetryAux, he]

theorem addAux_step (cfg : RetryConfig)
    (provider : Nat → AddContextRequest → Option (List Char)) (ts : Nat → List Char)
    (attempt f : Nat) (req : AddContextRequest) (e : List Char)
    (he : provider attempt req = some e) (hat : attempt ≠ cfg.maxRetries) :
    addWithRetryAux cfg provider ts attempt (f + 1) req =
      ((addWithRetryAux cfg provider ts (attempt + 1) f
          (if conflictErr e then renameDoc req attempt (ts attempt) else req)).1,
        req :: (addWithRetryAux cfg provider ts (attempt + 1) f
          (if conflictErr e then renameDoc req attempt (ts attempt) else req)).2.1,
        backoffDelay cfg attempt :: (addWithRetryAux cfg provider ts (attempt + 1) f
          (if conflictErr e then renameDoc req attempt (ts attempt) else req)).2.2) := by
  simp [addWithRetryAux, he, hat]

theorem addAux_trace_len_le (cfg : RetryConfig)
    (provider : Nat → AddContextRequest → Option (List Char)) (ts : Nat → List Char) :
    ∀ (fuel attempt : Nat) (req : AddContextRequest),
    ((addWithRetryAux cfg provider ts attempt fuel req).2.1).length ≤ fuel := by
  intro fuel
  induction fuel with
  | zero => intro attempt req; simp [addAux_zero]
  | succ f ih =>
    intro attempt req
    cases h : provider attempt req with
    | none => simp [addAux_none cfg provider ts attempt f req h]
    | some e =>
      by_cases hat : attempt = cfg.maxRetries
      · subst hat
        simp [addAux_last cfg provider ts f req e h]
      · rw [addAux_step cfg provider ts attempt f req e h hat]
        simpa using ih (attempt + 1) _

theorem addAux_trace_head (cfg : RetryConfig)
    (provider : Nat → AddContextRequest → Option (List Char)) (ts : Nat → List Char)
    (fuel attempt : Nat) (req : AddContextRequest) (hf : 0 < fuel) :
    ∃ t, (addWithRetryAux cfg provider ts attempt fuel req).2.1 = req :: t := by
  obtain ⟨f, rfl⟩ : ∃ f, fuel = f + 1 := ⟨fuel - 1, by omega⟩
  cases h : provider attempt req with
  | none => exact ⟨[], by rw [addAux_none cfg provider ts attempt f req h]⟩
  | some e =>
    by_cases hat : attempt = cfg.maxRetries
    · subst hat
      exact ⟨[], by rw [addAux_last cfg provider ts f req e h]⟩
    · exact ⟨_, by rw [addAux_step cfg provider ts attempt f req e h hat]⟩

theorem addAux_allfail (cfg : RetryConfig)
    (provider : Nat → AddContextRequest → Option (List Char)) (ts : Nat → List Char)
    (hop : ∀ i r, provider i r ≠ none) :
    ∀ (fuel attempt : Nat) (req : AddContextRequest),
    attempt + fuel = cfg.maxRetries + 1 → 0 < fuel →
    ((addWithRetryAux cfg provider ts attempt fuel req).2.1).length = fuel ∧
    ∃ e, (addWithRetryAux cfg provider ts attempt fuel req).1 =
      some (wrapRetryErr cfg.maxRetries e) := by
  intro fuel
  induction fuel with
  | zero => intro attempt req _ h; omega
  | succ f ih =>
    intro attempt req hsum _
    obtain ⟨e, he⟩ : ∃ e, provider attempt req = some e := by
      cases h : provider attempt req with
      | none => exact absurd h (hop attempt req)
      | some e => exact ⟨e, rfl⟩
    rcases Nat.eq_zero_or_pos f with hf | hf
    · subst hf
      have hat : attempt = cfg.maxRetries := by omega
      subst hat
      rw [addAux_last cfg provider ts 0 req e he]
      exact ⟨rfl, e, rfl⟩
    · have hat : attempt ≠ cfg.maxRetries := by omega
      obtain ⟨hlen, e2, hres⟩ := ih (attempt + 1)
        (if conflictErr e then renameDoc req attempt (ts attempt) else req) (by omega) hf
      rw [addAux_step cfg provider ts attempt f req e he hat]
      exact ⟨by simpa using hlen, e2, hres⟩

theorem backoff_range_succ (cfg : RetryConfig) (attempt n : Nat) :
    List.map (fun i => backoffDelay cfg (attempt + i)) (List.range (n + 1)) =
      backoffDelay cfg attempt ::
        List.map (fun i => backoffDelay cfg (attempt + 1 + i)) (List.range n) := by
  rw [List.range_succ_eq_map, List.map_cons, List.map_map]
  have h1 : ((fun i => backoffDelay cfg (attempt + i)) ∘ Nat.succ) =
      fun i => backoffDelay cfg (attempt + 1 + i) := by
    funext i
    simp only [Function.comp]
    congr 1
    omega
  rw [h1]
  simp

theorem addAux_delays (cfg : RetryConfig)
    (provider : Nat → AddContextRequest → Option (List Char)) (ts : Nat → List Char) :
    ∀ (fuel attempt : Nat) (req : AddContextRequest),
    attempt + fuel = cfg.maxRetries + 1 →
    (addWithRetryAux cfg provider ts attempt fuel req).2.2 =
      (List.range (((addWithRetryAux cfg provider ts attempt fuel req).2.1).length - 1)).map
        (fun i => backoffDelay cfg (attempt + i)) := by
  intro fuel
  induction fuel with
  | zero => intro attempt req _; simp [addAux_zero]
  | succ f ih =>
    intro attempt req hsum
    cases he : provider attempt req with
    | none => simp [addAux_none cfg provider ts attempt f req he]
    | some e =>
      by_cases hat : attempt = cfg.maxRetries
      · subst hat
        simp [addAux_last cfg provider ts f req e he]
      · have hf : 0 < f := by omega
        rw [addAux_step cfg provider ts attempt f req e he hat]
        obtain ⟨t, ht⟩ := addAux_trace_head cfg provider ts f (attempt + 1)
          (if conflictErr e then renameDoc req attempt (ts attempt) else req) hf
        have hrec := ih (attempt + 1)
          (if conflictErr e then renameDoc req attempt (ts attempt) else req) (by omega)
        rw [ht] at hrec
        simp only [List.length_cons, Nat.add_sub_cancel] at hrec ⊢
        rw [hrec, ht]
        simp only [List.length_cons]
        rw [backoff_range_succ]

theorem addAux_chain (cfg : RetryConfig)
    (provider : Nat → AddContextRequest → Option (List Char)) (ts : Nat → List Char)
    (hconf : ∀ i r, ∃ e, provider i r = some e ∧
      containsSub e (strL ("File name already exists")) = true) :
    ∀ (fuel attempt : Nat) (req : AddContextRequest), req.documents ≠ [] →
    List.Chain' (fun a b => (fileNameOf a).length < (fileNameOf b).length)
      ((addWithRetryAux cfg provider ts attempt fuel req).2.1) := by
  intro fuel
  induction fuel with
  | zero => intro attempt req _; simp [addAux_zero]
  | succ f ih =>
    intro attempt req hdoc
    obtain ⟨e, he, hce⟩ := hconf attempt req
    have hconflict : conflictErr e = true := by simp [conflictErr, hce]
    by_cases hat : attempt = cfg.maxRetries
    · subst hat
      rw [addAux_last cfg provider ts f req e he]
      simp
    · rw [addAux_step cfg provider ts attempt f req e he hat]
      rw [if_pos hconflict]
      have hdoc2 : (renameDoc req attempt (ts attempt)).documents ≠ [] :=
        renameDoc_documents_ne req attempt (ts attempt) hdoc
      have hchain := ih (attempt + 1) (renameDoc req attempt (ts attempt)) hdoc2
      rcases Nat.eq_zero_or_pos f with hf | hf
      · subst hf
        rw [addAux_zero]
        simp
      · obtain ⟨t, ht⟩ := addAux_trace_head cfg provider ts f (attempt + 1)
          (renameDoc req attempt (ts attempt)) hf
        rw [ht] at hchain ⊢
        exact List.chain'_cons.mpr
          ⟨renameDoc_fileName_len req attempt (ts attempt) hdoc, hchain⟩

/-- C2 counterexample: with the collision-renaming revision's default config
(`MaxRetries = 4`) an always-failing provider is invoked five times, so the
add operation is not bounded by four invocations. -/
theorem AddContextWithRetry_five_invocations :
    ((AddContextWithRetry (fun _ _ => some (strL ("boom"))) (fun _ => [])
      sampleReq).2.1).length = 5 ∧
    ¬ ((AddContextWithRetry (fun _ _ => some (strL ("boom"))) (fun _ => [])
      sampleReq).2.1).length ≤ 4 := by
  decide

/-- C2 (amended): an upload via `AddContextWithRetry` invokes the provider at
most five times (`MaxRetries + 1` with the default `MaxRetries = 4`, not four);
between attempts the wait is the base delay times the growth factor 1.5 raised
to the attempt index, capped at the configured maximum delay; and when every
attempt fails the operation fails permanently after exactly five invocations
with an error wrapped with the retry count. -/
theorem AddContextWithRetry_spec :
    (∀ (provider : Nat → AddContextRequest → Option (List Char))
      (ts : Nat → List Char) (req : AddContextRequest),
      ((AddContextWithRetry provider ts req).2.1).length ≤ 5)
    ∧
    (∀ (provider : Nat → AddContextRequest → Option (List Char))
      (ts : Nat → List Char) (req : AddContextRequest),
      (∀ i r, provider i r ≠ none) →
      ((AddContextWithRetry provider ts req).2.1).length = 5 ∧
      ∃ e, (AddContextWithRetry provider ts req).1 = some (wrapRetryErr 4 e) ∧
        containsSub (wrapRetryErr 4 e) (natStr 4) = true)
    ∧
    (∀ (provider : Nat → AddContextRequest → Option (List Char))
      (ts : Nat → List Char) (req : AddContextRequest),
      (AddContextWithRetry provider ts req).2.2 =
        (List.range (((AddContextWithRetry provider ts req).2.1).length - 1)).map
          (backoffDelay DefaultRetryConfig))
    ∧
    (∀ attempt : Nat, backoffDelay DefaultRetryConfig attempt =
      min DefaultRetryConfig.maxDelay
        (DefaultRetryConfig.baseDelay * (3 / 2 : ℚ) ^ attempt)) := by
  refine ⟨?_, ?_, ?_, ?_⟩
  · intro provider ts req
    have := addAux_trace_len_le DefaultRetryConfig provider ts
      (DefaultRetryConfig.maxRetries + 1) 0 req
    simpa [AddContextWithRetry, DefaultRetryConfig] using this
  · intro provider ts req hop
    obtain ⟨hlen, e, hres⟩ := addAux_allfail DefaultRetryConfig provider ts hop
      (DefaultRetryConfig.maxRetries + 1) 0 req (by simp) (by simp)
    refine ⟨by simpa [AddContextWithRetry, DefaultRetryConfig] using hlen, e,
      by simpa [AddContextWithRetry, DefaultRetryConfig] using hres, ?_⟩
    have hshape : wrapRetryErr 4 e =
        strL ("operation failed after ") ++ (natStr 4 ++ (strL (" retries: ") ++ e)) := by
      simp [wrapRetryErr]
    rw [hshape]
    exact containsSub_append_middle _ _ _
  · intro provider ts req
    have := addAux_delays DefaultRetryConfig provider ts
      (DefaultRetryConfig.maxRetries + 1) 0 req (by simp)
    simpa [AddContextWithRetry] using this
  · intro attempt
    simp only [backoffDelay]
    rcases lt_or_le DefaultRetryConfig.maxDelay
      (DefaultRetryConfig.baseDelay * (3 / 2 : ℚ) ^ attempt) with h | h
    · rw [if_pos h, min_eq_left (le_of_lt h)]
    · rw [if_neg (not_lt.mpr h), min_eq_right h]

/-- Witness for C2's amended failure bound at a concrete always-failing
provider: exactly five invocations. -/
theorem AddContextWithRetry_spec_witness :
    ((AddContextWithRetry (fun _ _ => some (strL ("network down"))) (fun _ => [])
      sampleReq).2.1).length = 5 :=
  (AddContextWithRetry_spec.2.1 (fun _ _ => some (strL ("network down"))) (fun _ => [])
    sampleReq (fun _ _ => by simp)).1

/-- C8: for an upload whose every attempt fails with a file-name-conflict
error, the file name passed to the provider differs between any two attempts
of that upload. -/
theorem AddContextWithRetry_rename_distinct
    (provider : Nat → AddContextRequest → Option (List Char))
    (ts : Nat → List Char) (req : AddContextRequest)
    (hconf : ∀ i r, ∃ e, provider i r = some e ∧
      containsSub e (strL ("File name already exists")) = true)
    (hdoc : req.documents ≠ []) :
    List.Pairwise (fun a b => fileNameOf a ≠ fileNameOf b)
      ((AddContextWithRetry provider ts req).2.1) := by
  have hchain := addAux_chain DefaultRetryConfig provider ts hconf
    (DefaultRetryConfig.maxRetries + 1) 0 req hdoc
  haveI : IsTrans AddContextRequest
      (fun a b => (fileNameOf a).length < (fileNameOf b).length) :=
    ⟨fun _ _ _ h1 h2 => Nat.lt_trans h1 h2⟩
  have hpw := (List.chain'_iff_pairwise).mp hchain
  exact hpw.imp (fun h heq => absurd (congrArg List.length heq) (Nat.ne_of_lt h))

/-- Witness for C8 at a provider that always reports a name conflict: the five
requests of the trace carry pairwise distinct file names. -/
theorem AddContextWithRetry_rename_distinct_witness :
    List.Pairwise (fun a b => fileNameOf a ≠ fileNameOf b)
      ((AddContextWithRetry (fun _ _ => some (strL ("File name already exists")))
        (fun _ => strL ("120000")) sampleReq).2.1) :=
  AddContextWithRetry_rename_distinct _ _ _
    (fun _ _ => ⟨strL ("File name already exists"), rfl, by decide⟩)
    (by simp [sampleReq])

-- ## Lemmas about query preprocessing

theorem iRep_succ_succ (m : Nat) :
    iRep (m + 2) = 'i' :: ' ' :: iRep (m + 1) := by
  simp [iRep, List.replicate, joinSep]

theorem map_toLowerGo_iRep (n : Nat) : (iRep n).map toLowerGo = iRep n := by
  induction n with
  | zero => rfl
  | succ k ih =>
    cases k with
    | zero => decide
    | succ m =>
      rw [iRep_succ_succ m, List.map_cons, List.map_cons, ih]
      have h1 : toLowerGo 'i' = 'i' := by decide
      have h2 : toLowerGo ' ' = ' ' := by decide
      rw [h1, h2]

theorem fieldsAux_iRep (n : Nat) :
    fieldsAux isSpaceGo (iRep (n + 1)) = (['i'], List.replicate n ['i']) := by
  induction n with
  | zero => decide
  | succ k ih =>
    rw [iRep_succ_succ k]
    simp [fieldsAux, ih, isSpaceGo, List.replicate]

theorem fieldsF_iRep (n : Nat) :
    fieldsF isSpaceGo (iRep n) = List.replicate n ['i'] := by
  cases n with
  | zero => rfl
  | succ k => simp [fieldsF, fieldsAux_iRep k, List.replicate]

theorem filterMap_replicate_none {α β : Type} (f : α → Option β) (w : α)
    (h : f w = none) : ∀ n : Nat, List.filterMap f (List.replicate n w) = [] := by
  intro n
  induction n with
  | zero => rfl
  | succ k ih => simp [List.replicate_succ, List.filterMap_cons, h, ih]

/-- C3 counterexample: the query "i i i" consists solely of stop-words; its
filtered form is empty, so filtering removes more than two-thirds of the
query's character length, yet `preprocessQuery` returns the empty string
rather than the original query. -/
theorem preprocessQuery_no_fallback :
    preprocessQuery (strL ("i i i")) = [] ∧
    3 * (preprocessQuery (strL ("i i i"))).length < (strL ("i i i")).length ∧
    preprocessQuery (strL ("i i i")) ≠ strL ("i i i") := by
  decide

/-- C3 (amended): `preprocessQuery` applies no length-based safety valve — it
returns the stop-word-filtered result unconditionally. A query of `n` copies
of the stop-word "i" is filtered to the empty string for every `n`, even
though filtering removes the entire character length of the query. -/
theorem preprocessQuery_stopwords_empty (n : Nat) :
    preprocessQuery (iRep n) = [] := by
  simp only [preprocessQuery, map_toLowerGo_iRep, fieldsF_iRep]
  rw [filterMap_replicate_none _ _ (by decide) n]
  rfl

/-- Witness for the amended C3 at a concrete stop-word query of five words. -/
theorem preprocessQuery_stopwords_empty_witness :
    preprocessQuery (iRep 5) = [] := preprocessQuery_stopwords_empty 5

-- ## Lemmas about the seeder's exchange sort

theorem passMax_cons_pos (h x : WikiPageConfig) (xs : List WikiPageConfig)
    (hc : h.priority < x.priority) :
    passMax h (x :: xs) = ((passMax x xs).1, h :: (passMax x xs).2) := by
  simp [passMax, hc]

theorem passMax_cons_neg (h x : WikiPageConfig) (xs : List WikiPageConfig)
    (hc : ¬ h.priority < x.priority) :
    passMax h (x :: xs) = ((passMax h xs).1, x :: (passMax h xs).2) := by
  simp [passMax, hc]

theorem passMax_length (l : List WikiPageConfig) :
    ∀ h, ((passMax h l).2).length = l.length := by
  induction l with
  | nil => intro h; simp [passMax]
  | cons x xs ih =>
    intro h
    by_cases hc : h.priority < x.priority
    · rw [passMax_cons_pos h x xs hc]; simp [ih x]
    · rw [passMax_cons_neg h x xs hc]; simp [ih h]

theorem passMax_head_ge (l : List WikiPageConfig) :
    ∀ h, h.priority ≤ ((passMax h l).1).priority := by
  induction l with
  | nil => intro h; simp [passMax]
  | cons x xs ih =>
    intro h
    by_cases hc : h.priority < x.priority
    · rw [passMax_cons_pos h x xs hc]
      exact le_trans (le_of_lt hc) (ih x)
    · rw [passMax_cons_neg h x xs hc]
      exact ih h

theorem passMax_max (l : List WikiPageConfig) :
    ∀ h, ∀ y ∈ (passMax h l).2, y.priority ≤ ((passMax h l).1).priority := by
  induction l with
  | nil => intro h; simp [passMax]
  | cons x xs ih =>
    intro h y hy
    by_cases hc : h.priority < x.priority
    · rw [passMax_cons_pos h x xs hc] at hy ⊢
      rcases List.mem_cons.mp hy with rfl | hy2
      · exact le_trans (le_of_lt hc) (passMax_head_ge xs x)
      · exact ih x y hy2
    · rw [passMax_cons_neg h x xs hc] at hy ⊢
      rcases List.mem_cons.mp hy with rfl | hy2
      · exact le_trans (not_lt.mp hc) (passMax_head_ge xs h)
      · exact ih h y hy2

theorem passMax_perm (l : List WikiPageConfig) :
    ∀ h, List.Perm ((passMax h l).1 :: (passMax h l).2) (h :: l) := by
  induction l with
  | nil => intro h; simp [passMax]
  | cons x xs ih =>
    intro h
    by_cases hc : h.priority < x.priority
    · rw [passMax_cons_pos h x xs hc]
      exact List.Perm.trans (List.Perm.swap h (passMax x xs).1 (passMax x xs).2)
        ((ih x).cons h)
    · rw [passMax_cons_neg h x xs hc]
      exact List.Perm.trans (List.Perm.swap x (passMax h xs).1 (passMax h xs).2)
        (List.Perm.trans ((ih h).cons x) (List.Perm.swap h x xs))

theorem exchangeSortGo_perm :
    ∀ (fuel : Nat) (l : List WikiPageConfig), l.length ≤ fuel →
    List.Perm (exchangeSortGo fuel l) l := by
  intro fuel
  induction fuel with
  | zero => intro l _; exact List.Perm.refl l
  | succ f ih =>
    intro l hl
    cases l with
    | nil => simp [exchangeSortGo]
    | cons a rest =>
      have hrec := ih (passMax a rest).2 (by rw [passMax_length rest a]; simpa using hl)
      exact List.Perm.trans (hrec.cons (passMax a rest).1) (passMax_perm rest a)

theorem exchangeSortGo_sorted :
    ∀ (fuel : Nat) (l : List WikiPageConfig), l.length ≤ fuel →
    List.Pairwise (fun a b => b.priority ≤ a.priority) (exchangeSortGo fuel l) := by
  intro fuel
  induction fuel with
  | zero =>
    intro l hl
    have : l = [] := List.eq_nil_of_length_eq_zero (by omega)
    subst this
    simp [exchangeSortGo]
  | succ f ih =>
    intro l hl
    cases l with
    | nil => simp [exchangeSortGo]
    | cons a rest =>
      have hlen : rest.length ≤ f := by simpa using hl
      have hlenp : ((passMax a rest).2).length ≤ f := by rw [passMax_length rest a]; exact hlen
      show List.Pairwise _ ((passMax a rest).1 :: exchangeSortGo f (passMax a rest).2)
      refine List.Pairwise.cons ?_ (ih (passMax a rest).2 hlenp)
      intro y hy
      have hmem : y ∈ (passMax a rest).2 :=
        (exchangeSortGo_perm f (passMax a rest).2 hlenp).mem_iff.mp hy
      exact passMax_max rest a y hmem

/-- C5 counterexample: on a catalog of two tied-priority pages followed by a
higher-priority page, the seeder's exchange sort reverses the tied pages, so
ties are not broken by catalog order. -/
theorem seedOrder_not_stable :
    seedOrder [pageA, pageB, pageC] 0 = [pageC, pageB, pageA] ∧
    ([pageC, pageB, pageA] : List WikiPageConfig) ≠ [pageC, pageA, pageB] := by
  decide

/-- C5 (amended): the seeder processes pages in descending priority order — an
unstable exchange sort of the catalog, which does not in general keep tied
priorities in catalog order — and a positive page-count limit truncates the
sorted order to its first `limit` pages. -/
theorem SeedContent_order_spec :
    (∀ catalog : List WikiPageConfig,
      List.Pairwise (fun a b => b.priority ≤ a.priority) (exchangeSort catalog) ∧
      List.Perm (exchangeSort catalog) catalog)
    ∧
    (∀ (catalog : List WikiPageConfig) (limit : Int), 0 < limit →
      seedOrder catalog limit = (exchangeSort catalog).take limit.toNat) := by
  constructor
  · intro catalog
    exact ⟨exchangeSortGo_sorted catalog.length catalog le_rfl,
      exchangeSortGo_perm catalog.length catalog le_rfl⟩
  · intro catalog limit hpos
    by_cases hlt : limit < ((exchangeSort catalog).length : Int)
    · simp [seedOrder, hpos, hlt]
    · have hle : (exchangeSort catalog).length ≤ limit.toNat := by omega
      simp [seedOrder, hpos, hlt, List.take_of_length_le hle]

/-- Witness for the amended C5: the concrete three-page catalog truncated to
its first two sorted pages. -/
theorem SeedContent_order_spec_witness :
    seedOrder [pageA, pageB, pageC] 2 = (exchangeSort [pageA, pageB, pageC]).take 2 :=
  SeedContent_order_spec.2 [pageA, pageB, pageC] 2 (by decide)

-- ## Lemmas about readability scoring

theorem headCons_ne_nil (c : Char) (ps : List (List Char)) : headCons c ps ≠ [] := by
  cases ps <;> simp [headCons]

theorem splitTerms_ne_nil : ∀ l : List Char, splitTerms l ≠ [] := by
  intro l
  induction l with
  | nil => simp [splitTerms]
  | cons c rest ih =>
    cases rest with
    | nil =>
      by_cases h : isTermC c
      · simp [splitTerms, h]
      · simp [splitTerms, h]
    | cons d rest2 =>
      by_cases h : isTermC c
      · by_cases h2 : isTermC d
        · simpa [splitTerms, h, h2] using ih
        · simp [splitTerms, h, h2]
      · simpa [splitTerms, h] using headCons_ne_nil c (splitTerms (d :: rest2))

theorem splitTerms_no_term : ∀ l : List Char, (∀ c ∈ l, isTermC c = false) →
    splitTerms l = [l] := by
  intro l
  induction l with
  | nil => intro _; rfl
  | cons c rest ih =>
    intro hall
    have hc : isTermC c = false := hall c (by simp)
    cases rest with
    | nil => simp [splitTerms, hc]
    | cons d rest2 =>
      have hrec : splitTerms (d :: rest2) = [d :: rest2] :=
        ih (fun x hx => hall x (by simp [hx]))
      simp [splitTerms, hc, hrec, headCons]

/-- C6 counterexample: the input "hello world foo" contains no sentence
terminator, yet `CalculateReadability` returns 94 (one sentence of three
words), not the fixed neutral score 50. -/
theorem CalculateReadability_no_term_94 :
    (∀ c ∈ strL ("hello world foo"), isTermC c = false) ∧
    CalculateReadability (strL ("hello world foo")) = 94 ∧
    (94 : Int) ≠ 50 := by
  decide

/-- C6 (amended): `CalculateReadability` always returns a score within
`[0, 100]`; the sentence split always produces at least one part, so the
`sentenceCount == 0` branch returning the neutral 50 is unreachable, and an
input with no sentence terminators is scored as a single sentence:
`max 0 (100 - 2 * wordCount)`. -/
theorem CalculateReadability_spec :
    (∀ text : List Char,
      0 ≤ CalculateReadability text ∧ CalculateReadability text ≤ 100)
    ∧
    (∀ text : List Char, 1 ≤ (splitTerms text).length)
    ∧
    (∀ text : List Char, text ≠ [] → (∀ c ∈ text, isTermC c = false) →
      CalculateReadability text = max 0 (100 - 2 * (CountWords text : Int))) := by
  refine ⟨?_, ?_, ?_⟩
  · intro text
    by_cases h0 : text = []
    · simp [CalculateReadability, h0]
    · simp only [CalculateReadability, if_neg h0]
      by_cases hs : (splitTerms text).length = 0
      · simp [hs]
        try omega
      · simp only [if_neg hs]
        set q : Int := Int.ofNat (2 * CountWords text / (splitTerms text).length) with hq
        have hq0 : 0 ≤ q := Int.ofNat_nonneg _
        by_cases hneg : (100 : Int) - q < 0
        · simp [hneg]
          try omega
        · by_cases hbig : (100 : Int) < 100 - q
          · simp [hneg, hbig]
            try omega
          · simp [hneg, hbig]
            try omega
  · intro text
    have := splitTerms_ne_nil text
    cases h : splitTerms text with
    | nil => exact absurd h this
    | cons a t => simp
  · intro text h0 hall
    have hs : splitTerms text = [text] := splitTerms_no_term text hall
    simp only [CalculateReadability, if_neg h0, hs, List.length_singleton]
    norm_num
    omega

/-- Witness for the amended C6 at the terminator-free input
"hello world foo". -/
theorem CalculateReadability_spec_witness :
    CalculateReadability (strL ("hello world foo")) =
      max 0 (100 - 2 * ((CountWords (strL ("hello world foo"))) : Int)) :=
  CalculateReadability_spec.2.2 (strL ("hello world foo")) (by decide) (by decide)

-- ## Lemmas about relevance scoring

theorem addBoost_count (lower : List Char) (inc : ℚ) :
    ∀ (ts : List (List Char)) (sc : ℚ),
    addBoost lower inc ts sc =
      sc + inc * ((ts.filter (fun t => containsSub lower t)).length : ℚ) := by
  intro ts
  induction ts with
  | nil => intro sc; simp [addBoost]
  | cons t ts ih =>
    intro sc
    by_cases h : containsSub lower t
    · rw [show addBoost lower inc (t :: ts) sc = addBoost lower inc ts (sc + inc) by
        simp [addBoost, h]]
      rw [ih (sc + inc)]
      simp only [List.filter_cons, h, if_true, List.length_cons]
      push_cast
      ring
    · rw [show addBoost lower inc (t :: ts) sc = addBoost lower inc ts sc by
        simp [addBoost, h]]
      rw [ih sc]
      simp only [List.filter_cons, h]
      simp

theorem calculateRelevanceScore_eq (content : List Char) :
    calculateRelevanceScore content =
      (let ce : ℚ :=
        ((errorTerms.filter (fun t => containsSub (content.map toLowerGo) t)).length : ℚ)
      let cs : ℚ :=
        ((solutionTerms.filter (fun t => containsSub (content.map toLowerGo) t)).length : ℚ)
      let cmd :=
        containsSub (content.map toLowerGo) (strL ("sudo"))
          || containsSub (content.map toLowerGo) (strL ("pacman"))
          || containsSub (content.map toLowerGo) (strL ("systemctl"))
      let s3 := if cmd then 1 / 2 + 1 / 10 * ce + 1 / 10 * cs + 1 / 5
        else 1 / 2 + 1 / 10 * ce + 1 / 10 * cs
      if 1 < s3 then 1 else s3) := by
  simp only [calculateRelevanceScore, addBoost_count]

/-- C7: a result content containing exactly one error-vocabulary term,
exactly one solution-vocabulary term and no command indicator scores
`0.5 + 0.1 + 0.1 = 0.7` and is labelled `medium`. -/
theorem calculateRelevanceScore_one_one (content : List Char)
    (herr : (errorTerms.filter (fun t => containsSub (content.map toLowerGo) t)).length = 1)
    (hsol : (solutionTerms.filter (fun t => containsSub (content.map toLowerGo) t)).length = 1)
    (hsudo : containsSub (content.map toLowerGo) (strL ("sudo")) = false)
    (hpac : containsSub (content.map toLowerGo) (strL ("pacman")) = false)
    (hsys : containsSub (content.map toLowerGo) (strL ("systemctl")) = false) :
    calculateRelevanceScore content = 7 / 10 ∧
    determineRelevance (calculateRelevanceScore content) = strL ("medium") := by
  have hscore : calculateRelevanceScore content = 7 / 10 := by
    rw [calculateRelevanceScore_eq]
    simp only [herr, hsol, hsudo, hpac, hsys]
    norm_num
  refine ⟨hscore, ?_⟩
  rw [hscore]
  have h1 : ¬ ((4 : ℚ) / 5 ≤ 7 / 10) := by norm_num
  have h2 : (3 : ℚ) / 5 ≤ 7 / 10 := by norm_num
  simp [determineRelevance, h1, h2]

/-- Witness for C7 at the content "error install": exactly one error term
("error"), one solution term ("install"), no command indicator. -/
theorem calculateRelevanceScore_one_one_witness :
    calculateRelevanceScore (strL ("error install")) = 7 / 10 ∧
    determineRelevance (calculateRelevanceScore (strL ("error install"))) =
      strL ("medium") :=
  calculateRelevanceScore_one_one (strL ("error install"))
    (by decide) (by decide) (by decide) (by decide) (by decide)

theorem capBound (x : ℚ) (hx : 1 / 2 ≤ x) :
    1 / 2 ≤ (if 1 < x then (1 : ℚ) else x) ∧ (if 1 < x then (1 : ℚ) else x) ≤ 1 := by
  by_cases h : 1 < x
  · simp only [h, if_true]
    norm_num
  · simp only [h, if_false]
    exact ⟨hx, not_lt.mp h⟩

theorem calculateRelevanceScore_bounds (content : List Char) :
    1 / 2 ≤ calculateRelevanceScore content ∧ calculateRelevanceScore content ≤ 1 := by
  rw [calculateRelevanceScore_eq]
  have hce : (0 : ℚ) ≤
      ((errorTerms.filter (fun t => containsSub (content.map toLowerGo) t)).length : ℚ) :=
    Nat.cast_nonneg _
  have hcs : (0 : ℚ) ≤
      ((solutionTerms.filter (fun t => containsSub (content.map toLowerGo) t)).length : ℚ) :=
    Nat.cast_nonneg _
  by_cases hcmd : (containsSub (content.map toLowerGo) (strL ("sudo"))
      || containsSub (content.map toLowerGo) (strL ("pacman"))
      || containsSub (content.map toLowerGo) (strL ("systemctl"))) = true
  · simp only [hcmd, if_true]
    exact capBound _ (by nlinarith)
  · simp only [Bool.not_eq_true] at hcmd
    simp only [hcmd, Bool.false_eq_true, if_false]
    exact capBound _ (by nlinarith)

/-- C10: `calculateRelevanceScore` always lies in `[0.5, 1.0]`; every
`SearchResult` built by `convertAlchemystResults` hence has a score of at
least 0.5 and never below 0.3, so the score-floor branch of
`filterAndRankResults` drops nothing: the function agrees with its
floor-free variant on converted results. -/
theorem relevance_score_floor_spec :
    (∀ content : List Char,
      1 / 2 ≤ calculateRelevanceScore content ∧ calculateRelevanceScore content ≤ 1)
    ∧
    (∀ (rs : List AlchemystSearchResult), ∀ r ∈ convertAlchemystResults rs,
      1 / 2 ≤ r.score ∧ ¬ r.score < 3 / 10)
    ∧
    (∀ (rs : List AlchemystSearchResult) (q : List Char),
      filterAndRankResults (convertAlchemystResults rs) q =
        filterAndRankResultsNoFloor (convertAlchemystResults rs) q) := by
  have hmem : ∀ (rs : List AlchemystSearchResult), ∀ r ∈ convertAlchemystResults rs,
      1 / 2 ≤ r.score ∧ ¬ r.score < 3 / 10 := by
    intro rs r hr
    obtain ⟨a, _, rfl⟩ := List.mem_map.mp hr
    have hb := calculateRelevanceScore_bounds a.contextData
    exact ⟨hb.1, by intro hlt; have := hb.1; nlinarith⟩
  refine ⟨calculateRelevanceScore_bounds, hmem, ?_⟩
  intro rs q
  unfold filterAndRankResults filterAndRankResultsNoFloor
  congr 1
  apply List.filter_congr
  intro r hr
  have h2 : decide (r.score < 3 / 10) = false := decide_eq_false (hmem rs r hr).2
  simp [h2]

/-- Witness for C10: the score bound and the filter agreement at a concrete
provider hit. -/
theorem relevance_score_floor_spec_witness :
    1 / 2 ≤ calculateRelevanceScore (strL ("some text")) ∧
    filterAndRankResults (convertAlchemystResults [sampleHit]) (strL ("pacman")) =
      filterAndRankResultsNoFloor (convertAlchemystResults [sampleHit]) (strL ("pacman")) :=
  ⟨(relevance_score_floor_spec.1 (strL ("some text"))).1,
   relevance_score_floor_spec.2.2 [sampleHit] (strL ("pacman"))⟩

-- ## Lemmas about trimming and non-whitespace content

theorem nonWS_append (a b : List Char) : nonWS (a ++ b) = nonWS a ++ nonWS b := by
  simp [nonWS]

theorem nonWS_dropWhile (l : List Char) :
    nonWS (l.dropWhile isSpaceGo) = nonWS l := by
  induction l with
  | nil => rfl
  | cons c rest ih =>
    by_cases h : isSpaceGo c
    · simpa [List.dropWhile_cons, h, nonWS] using ih
    · simp [List.dropWhile_cons, h]

theorem nonWS_reverse (l : List Char) : nonWS l.reverse = (nonWS l).reverse := by
  simp [nonWS, List.filter_reverse]

theorem nonWS_rdropWhile (l : List Char) :
    nonWS (l.rdropWhile isSpaceGo) = nonWS l := by
  rw [List.rdropWhile, nonWS_reverse, nonWS_dropWhile, nonWS_reverse, List.reverse_reverse]

theorem nonWS_trimGo (l : List Char) : nonWS (trimGo l) = nonWS l := by
  rw [trimGo, nonWS_rdropWhile, nonWS_dropWhile]

theorem trimGo_length_le (l : List Char) : (trimGo l).length ≤ l.length := by
  calc (trimGo l).length ≤ (l.dropWhile isSpaceGo).length :=
      (List.rdropWhile_prefix _ _).sublist.length_le
    _ ≤ l.length := (List.dropWhile_sublist _).length_le

theorem head_false_of_dropWhile_eq_self (p : Char → Bool) (c : Char) (rest : List Char)
    (h : (c :: rest).dropWhile p = c :: rest) : p c = false := by
  by_cases hp : p c
  · rw [List.dropWhile_cons, if_pos hp] at h
    have := (List.dropWhile_sublist (l := rest) p).length_le
    rw [h] at this
    simp at this
  · simpa using hp

theorem trimGo_idem (l : List Char) : trimGo (trimGo l) = trimGo l := by
  rw [trimGo, trimGo]
  set x := l.dropWhile isSpaceGo with hx
  have hxx : x.dropWhile isSpaceGo = x := by
    rw [hx]; exact List.dropWhile_idempotent isSpaceGo l
  have hpre : x.rdropWhile isSpaceGo <+: x := List.rdropWhile_prefix _ _
  cases hy : x.rdropWhile isSpaceGo with
  | nil => simp [List.rdropWhile_nil]
  | cons c yt =>
    obtain ⟨t, ht⟩ := hpre
    rw [hy] at ht
    have hcx : x = c :: (yt ++ t) := by rw [← ht]; simp
    have hpc : isSpaceGo c = false := by
      apply head_false_of_dropWhile_eq_self isSpaceGo c (yt ++ t)
      rw [← hcx]
      exact hxx
    have hdy : (c :: yt).dropWhile isSpaceGo = c :: yt := by
      rw [List.dropWhile_cons, if_neg (by simp [hpc])]
    rw [hdy, ← hy, List.rdropWhile_idempotent]

-- ## Lemmas about the chunker

theorem splitSeps_ne_nil (l : List Char) : splitSeps l ≠ [] := by
  match l with
  | [] => simp [splitSeps]
  | [c] => simp [splitSeps]
  | c :: d :: rest =>
    by_cases h : c = '\n' ∧ d = '\n'
    · simp [splitSeps, h]
    · simpa [splitSeps, h] using headCons_ne_nil c (splitSeps (d :: rest))

theorem nonWS_cons (c : Char) (l : List Char) :
    nonWS (c :: l) = nonWS [c] ++ nonWS l := by
  by_cases h : isSpaceGo c
  · simp [nonWS, List.filter_cons, h]
  · simp [nonWS, List.filter_cons, h]

theorem flatten_map_nonWS_headCons (c : Char) (P : List (List Char)) (hP : P ≠ []) :
    ((headCons c P).map nonWS).flatten = nonWS [c] ++ (P.map nonWS).flatten := by
  cases P with
  | nil => exact absurd rfl hP
  | cons p ps =>
    simp only [headCons, List.map_cons, List.flatten_cons, nonWS_cons c p]
    simp

theorem splitSeps_nonWS (l : List Char) :
    ((splitSeps l).map nonWS).flatten = nonWS l := by
  have H : ∀ (n : Nat) (l : List Char), l.length ≤ n →
      ((splitSeps l).map nonWS).flatten = nonWS l := by
    intro n
    induction n with
    | zero =>
      intro l hl
      have : l = [] := List.eq_nil_of_length_eq_zero (by omega)
      subst this
      simp [splitSeps, nonWS]
    | succ m ih =>
      intro l hl
      match l with
      | [] => simp [splitSeps, nonWS]
      | [c] => simp [splitSeps, nonWS]
      | c :: d :: rest =>
        by_cases h : c = '\n' ∧ d = '\n'
        · obtain ⟨rfl, rfl⟩ := h
          have hrec := ih rest (by simp at hl; omega)
          have hsplit : splitSeps ('\n' :: '\n' :: rest) = [] :: splitSeps rest := by
            simp [splitSeps]
          rw [hsplit]
          simp only [List.map_cons, List.flatten_cons, hrec]
          have hws : isSpaceGo '\n' = true := by decide
          simp [nonWS, List.filter_cons, hws]
        · have hrec := ih (d :: rest) (by simp at hl ⊢; omega)
          simp only [splitSeps, if_neg h]
          rw [flatten_map_nonWS_headCons c _ (splitSeps_ne_nil (d :: rest)), hrec,
            ← nonWS_cons]
  exact H l.length l le_rfl

theorem nonWS_joinSep (sep : List Char) (hsep : nonWS sep = []) :
    ∀ parts : List (List Char),
    nonWS (joinSep sep parts) = (parts.map nonWS).flatten := by
  intro parts
  induction parts with
  | nil => rfl
  | cons p ps ih =>
    cases ps with
    | nil => simp [joinSep]
    | cons q qs =>
      rw [show joinSep sep (p :: q :: qs) = p ++ sep ++ joinSep sep (q :: qs) from rfl]
      rw [nonWS_append, nonWS_append, hsep, ih]
      simp

theorem packWith_nonWS (sep : List Char) (maxSize : Nat) (hsep : nonWS sep = []) :
    ∀ (ps : List (List Char)) (cur : List Char),
    ((packWith sep maxSize ps cur).map nonWS).flatten = nonWS cur ++ (ps.map nonWS).flatten := by
  intro ps
  induction ps with
  | nil =>
    intro cur
    by_cases h : cur = []
    · simp [packWith, h, nonWS]
    · simp [packWith, h, nonWS_trimGo]
  | cons p qs ih =>
    intro cur
    by_cases h1 : trimGo p = []
    · have hp : nonWS p = [] := by rw [← nonWS_trimGo p, h1]; rfl
      have hstep : packWith sep maxSize (p :: qs) cur = packWith sep maxSize qs cur := by
        simp [packWith, h1]
      rw [hstep, ih cur]
      simp [hp]
    · by_cases h2 : 0 < cur.length ∧ maxSize < cur.length + (trimGo p).length + 2
      · have hstep : packWith sep maxSize (p :: qs) cur =
            trimGo cur :: packWith sep maxSize qs (trimGo p) := by
          simp [packWith, h1, h2]
        rw [hstep]
        simp only [List.map_cons, List.flatten_cons]
        rw [ih (trimGo p), nonWS_trimGo, nonWS_trimGo]
      · by_cases h3 : cur = []
        · have hstep : packWith sep maxSize (p :: qs) cur =
              packWith sep maxSize qs (trimGo p) := by
            simp [packWith, h1, h2, h3]
          rw [hstep, ih (trimGo p), nonWS_trimGo, h3]
          simp [nonWS]
        · have hstep : packWith sep maxSize (p :: qs) cur =
              packWith sep maxSize qs (cur ++ sep ++ trimGo p) := by
            simp [packWith, h1, h2, h3]
          rw [hstep, ih (cur ++ sep ++ trimGo p), nonWS_append, nonWS_append, hsep,
            nonWS_trimGo]
          simp

theorem packWith_mem (sep : List Char) (maxSize : Nat) (hsep : sep.length = 2)
    (ss0 : List (List Char)) :
    ∀ (ss : List (List Char)) (cur : List Char),
    (∀ s ∈ ss, s ∈ ss0) →
    (cur = [] ∨ cur.length ≤ maxSize ∨ ∃ s ∈ ss0, cur = trimGo s) →
    ∀ c ∈ packWith sep maxSize ss cur,
      c.length ≤ maxSize ∨ ∃ s ∈ ss0, c = trimGo s := by
  intro ss
  induction ss with
  | nil =>
    intro cur _ hcur c hc
    by_cases h : cur = []
    · simp [packWith, h] at hc
    · simp only [packWith, if_neg h] at hc
      have hc2 : c = trimGo cur := by simpa using hc
      rcases hcur with rfl | hlen | ⟨s, hs, rfl⟩
      · exact absurd rfl h
      · exact Or.inl (by rw [hc2]; exact le_trans (trimGo_length_le cur) hlen)
      · exact Or.inr ⟨s, hs, by rw [hc2, trimGo_idem]⟩
  | cons p qs ih =>
    intro cur hsub hcur c hc
    have hpss : p ∈ ss0 := hsub p (by simp)
    have hsub2 : ∀ s ∈ qs, s ∈ ss0 := fun s hs => hsub s (by simp [hs])
    by_cases h1 : trimGo p = []
    · have hstep : packWith sep maxSize (p :: qs) cur = packWith sep maxSize qs cur := by
        simp [packWith, h1]
      rw [hstep] at hc
      exact ih cur hsub2 hcur c hc
    · by_cases h2 : 0 < cur.length ∧ maxSize < cur.length + (trimGo p).length + 2
      · have hstep : packWith sep maxSize (p :: qs) cur =
            trimGo cur :: packWith sep maxSize qs (trimGo p) := by
          simp [packWith, h1, h2]
        rw [hstep] at hc
        rcases List.mem_cons.mp hc with rfl | hc2
        · rcases hcur with rfl | hlen | ⟨s, hs, rfl⟩
          · simp at h2
          · exact Or.inl (le_trans (trimGo_length_le cur) hlen)
          · exact Or.inr ⟨s, hs, by rw [trimGo_idem]⟩
        · exact ih (trimGo p) hsub2 (Or.inr (Or.inr ⟨p, hpss, rfl⟩)) c hc2
      · by_cases h3 : cur = []
        · have hstep : packWith sep maxSize (p :: qs) cur =
              packWith sep maxSize qs (trimGo p) := by
            simp [packWith, h1, h2, h3]
          rw [hstep] at hc
          exact ih (trimGo p) hsub2 (Or.inr (Or.inr ⟨p, hpss, rfl⟩)) c hc
        · have hstep : packWith sep maxSize (p :: qs) cur =
              packWith sep maxSize qs (cur ++ sep ++ trimGo p) := by
            simp [packWith, h1, h2, h3]
          rw [hstep] at hc
          refine ih (cur ++ sep ++ trimGo p) hsub2 (Or.inr (Or.inl ?_)) c hc
          have hcl : 0 < cur.length := List.length_pos.mpr h3
          have hnb : ¬ maxSize < cur.length + (trimGo p).length + 2 := fun hx => h2 ⟨hcl, hx⟩
          simp only [List.length_append, hsep]
          omega

/-- C4 counterexample: `SplitIntoChunks("A! B", 3)` sentence-splits into
`["A", "B"]`, consuming the non-whitespace terminator `!`; no rejoining with
the code's separators (". " or the paragraph joiner) reconstructs the
non-whitespace content of the input. -/
theorem SplitIntoChunks_loses_terminators :
    SplitIntoChunks (strL ("A! B")) 3 = [strL ("A"), strL ("B")] ∧
    nonWS (joinSep (strL (". ")) (SplitIntoChunks (strL ("A! B")) 3)) ≠
      nonWS (strL ("A! B")) ∧
    nonWS (joinSep (strL ("\n\n")) (SplitIntoChunks (strL ("A! B")) 3)) ≠
      nonWS (strL ("A! B")) := by
  decide

/-- C4 (amended): every chunk of `SplitIntoChunks(text, N)` has length at
most `N`, except chunks that are single (trimmed) sentences of an oversized
paragraph-chunk and themselves exceed `N`; and provided no intermediate
paragraph-chunk exceeds `N` — so the terminator-consuming sentence splitter
never fires — concatenating the chunks with the paragraph separator
reconstructs all non-whitespace content of the input. -/
theorem SplitIntoChunks_spec (text : List Char) (N : Nat) (hN : 0 < N) :
    (∀ c ∈ SplitIntoChunks text N,
      c.length ≤ N ∨
      (N < c.length ∧ ∃ d ∈ paraChunks text N, N < d.length ∧
        ∃ s ∈ splitSent d, c = trimGo s))
    ∧
    ((∀ d ∈ paraChunks text N, d.length ≤ N) →
      nonWS (joinSep (strL ("\n\n")) (SplitIntoChunks text N)) = nonWS text) := by
  constructor
  · intro c hc
    by_cases htext : text.length ≤ N
    · have hct : c = text := by simpa [SplitIntoChunks, htext] using hc
      exact Or.inl (hct ▸ htext)
    · rw [SplitIntoChunks, if_neg htext] at hc
      obtain ⟨d, hd, hcd⟩ := List.mem_flatMap.mp hc
      by_cases hdlen : d.length ≤ N
      · have hct : c = d := by simpa [hdlen] using hcd
        exact Or.inl (hct ▸ hdlen)
      · rw [if_neg hdlen] at hcd
        have hmem := packWith_mem (strL (". ")) N (by decide) (splitSent d)
          (splitSent d) [] (fun s hs => hs) (Or.inl rfl) c hcd
        rcases hmem with hlen | ⟨s, hs, rfl⟩
        · exact Or.inl hlen
        · by_cases hclen : (trimGo s).length ≤ N
          · exact Or.inl hclen
          · exact Or.inr ⟨by omega, d, hd, by omega, s, hs, rfl⟩
  · intro hall
    by_cases htext : text.length ≤ N
    · rw [SplitIntoChunks, if_pos htext]
      simp [joinSep]
    · have hid : SplitIntoChunks text N = paraChunks text N := by
        rw [SplitIntoChunks, if_neg htext]
        have hone : ∀ d ∈ paraChunks text N,
            (if d.length ≤ N then [d] else splitBySentences d N) = [d] := by
          intro d hd
          simp [hall d hd]
        rw [List.flatMap_def, List.map_congr_left hone, ← List.flatMap_def,
          List.flatMap_singleton']
      rw [hid, nonWS_joinSep (strL ("\n\n")) (by decide), paraChunks,
        packWith_nonWS (strL ("\n\n")) N (by decide), splitSeps_nonWS]
      simp [nonWS]

/-- Witness for the amended C4 at a two-paragraph text whose paragraph
chunks all fit the budget. -/
theorem SplitIntoChunks_spec_witness :
    nonWS (joinSep (strL ("\n\n")) (SplitIntoChunks (strL ("a.\n\nb")) 3)) =
      nonWS (strL ("a.\n\nb")) :=
  (SplitIntoChunks_spec (strL ("a.\n\nb")) 3 (by decide)).2 (by decide)

-- ## Lemmas about content cleaning

theorem trimGo_nil : trimGo [] = [] := rfl

theorem newline_not_mem_collapseWS (l : List Char) : '\n' ∉ collapseWS l := by
  induction l using collapseWS.induct with
  | case1 => simp [collapseWS]
  | case2 c hc =>
    simp only [collapseWS, if_pos hc]
    decide
  | case3 c hc =>
    simp only [collapseWS, if_neg hc]
    intro hmem
    simp at hmem
    exact hc (by rw [← hmem]; decide)
  | case4 c d rest hc hd ih =>
    simpa [collapseWS, hc, hd] using ih
  | case5 c d rest hc hd ih =>
    simp only [collapseWS, if_pos hc, if_neg hd]
    intro hmem
    rcases List.mem_cons.mp hmem with h1 | h2
    · exact absurd h1 (by decide)
    · exact ih h2
  | case6 c d rest hc ih =>
    simp only [collapseWS, if_neg hc]
    intro hmem
    rcases List.mem_cons.mp hmem with h1 | h2
    · exact hc (by rw [← h1]; decide)
    · exact ih h2

theorem collapseWS_cons_not_ws (d : Char) (rest : List Char) (hd : ¬ isWSre d = true) :
    ∃ t, collapseWS (d :: rest) = d :: t := by
  cases rest with
  | nil => exact ⟨[], by simp [collapseWS, hd]⟩
  | cons e r2 => exact ⟨collapseWS (e :: r2), by simp [collapseWS, hd]⟩

theorem collapseWS_wsOnly (l : List Char) : wsOnlySpace (collapseWS l) := by
  induction l using collapseWS.induct with
  | case1 => intro c hc; simp [collapseWS] at hc
  | case2 c hc =>
    intro e he _
    simp only [collapseWS, if_pos hc] at he
    simpa using he
  | case3 c hc =>
    intro e he hews
    simp only [collapseWS, if_neg hc] at he
    simp at he
    exact absurd (he ▸ hews) hc
  | case4 c d rest hc hd ih =>
    simpa [collapseWS, hc, hd] using ih
  | case5 c d rest hc hd ih =>
    intro e he hews
    simp only [collapseWS, if_pos hc, if_neg hd] at he
    rcases List.mem_cons.mp he with h1 | h2
    · exact h1
    · exact ih e h2 hews
  | case6 c d rest hc ih =>
    intro e he hews
    simp only [collapseWS, if_neg hc] at he
    rcases List.mem_cons.mp he with h1 | h2
    · exact absurd (h1 ▸ hews) hc
    · exact ih e h2 hews

theorem noAdjWS_cons_not_ws (c : Char) (X : List Char) (hc : ¬ isWSre c = true)
    (hX : noAdjWS X) : noAdjWS (c :: X) := by
  cases X with
  | nil => trivial
  | cons x xs => exact ⟨fun hp => hc hp.1, hX⟩

theorem collapseWS_noAdj (l : List Char) : noAdjWS (collapseWS l) := by
  induction l using collapseWS.induct with
  | case1 => simp [collapseWS, noAdjWS]
  | case2 c hc => simp [collapseWS, hc, noAdjWS]
  | case3 c hc => simp [collapseWS, hc, noAdjWS]
  | case4 c d rest hc hd ih => simpa [collapseWS, hc, hd] using ih
  | case5 c d rest hc hd ih =>
    simp only [collapseWS, if_pos hc, if_neg hd]
    obtain ⟨t, ht⟩ := collapseWS_cons_not_ws d rest hd
    rw [ht] at ih ⊢
    exact ⟨fun hp => hd hp.2, ih⟩
  | case6 c d rest hc ih =>
    simp only [collapseWS, if_neg hc]
    exact noAdjWS_cons_not_ws c _ hc ih

theorem noAdjWS_tail (c : Char) (rest : List Char) (h : noAdjWS (c :: rest)) :
    noAdjWS rest := by
  cases rest with
  | nil => trivial
  | cons d r2 => exact h.2

theorem wsOnlySpace_tail (c : Char) (rest : List Char) (h : wsOnlySpace (c :: rest)) :
    wsOnlySpace rest := fun e he hews => h e (by simp [he]) hews

theorem collapseWS_fixed (l : List Char) (hws : wsOnlySpace l) (hadj : noAdjWS l) :
    collapseWS l = l := by
  induction l using collapseWS.induct with
  | case1 => rfl
  | case2 c hc =>
    have : c = ' ' := hws c (by simp) hc
    simp [collapseWS, hc, this]
  | case3 c hc => simp [collapseWS, hc]
  | case4 c d rest hc hd ih => exact absurd ⟨hc, hd⟩ hadj.1
  | case5 c d rest hc hd ih =>
    have hcs : c = ' ' := hws c (by simp) hc
    have hrec := ih (wsOnlySpace_tail c _ hws) (noAdjWS_tail c _ hadj)
    simp [collapseWS, hc, hd, hrec, hcs]
  | case6 c d rest hc ih =>
    have hrec := ih (wsOnlySpace_tail c _ hws) (noAdjWS_tail c _ hadj)
    simp [collapseWS, hc, hrec]

theorem noAdjWS_suffix : ∀ (t l : List Char), noAdjWS (t ++ l) → noAdjWS l := by
  intro t
  induction t with
  | nil => intro l h; exact h
  | cons a t2 ih =>
    intro l h
    exact ih l (noAdjWS_tail a _ (by simpa using h))

theorem noAdjWS_append_left : ∀ (l t : List Char), noAdjWS (l ++ t) → noAdjWS l := by
  intro l
  induction l with
  | nil => intro t _; trivial
  | cons c rest ih =>
    intro t h
    cases rest with
    | nil => trivial
    | cons d r2 =>
      have h2 : noAdjWS ((d :: r2) ++ t) := by
        have := noAdjWS_tail c _ (by simpa using h)
        simpa using this
      have h1 : ¬(isWSre c = true ∧ isWSre d = true) := by
        have : noAdjWS (c :: d :: (r2 ++ t)) := by simpa using h
        exact this.1
      exact ⟨h1, ih t h2⟩

theorem wsOnlySpace_of_sublist (a b : List Char) (h : List.Sublist a b)
    (hws : wsOnlySpace b) : wsOnlySpace a := fun c hc hcws => hws c (h.subset hc) hcws

theorem noAdjWS_trimGo (l : List Char) (h : noAdjWS l) : noAdjWS (trimGo l) := by
  obtain ⟨t1, ht1⟩ := List.dropWhile_suffix (l := l) isSpaceGo
  have hdrop : noAdjWS (l.dropWhile isSpaceGo) :=
    noAdjWS_suffix t1 _ (by rw [ht1]; exact h)
  obtain ⟨t2, ht2⟩ := List.rdropWhile_prefix isSpaceGo (l.dropWhile isSpaceGo)
  exact noAdjWS_append_left _ t2 (by rw [trimGo, ht2]; exact hdrop)

theorem wsOnlySpace_trimGo (l : List Char) (h : wsOnlySpace l) :
    wsOnlySpace (trimGo l) := by
  refine wsOnlySpace_of_sublist _ _
    (List.Sublist.trans
      (List.rdropWhile_prefix isSpaceGo (l.dropWhile isSpaceGo)).sublist
      (List.dropWhile_sublist isSpaceGo)) h

theorem splitChar_no_mem (sep : Char) (l : List Char) (h : sep ∉ l) :
    splitChar sep l = [l] := by
  induction l with
  | nil => rfl
  | cons c rest ih =>
    have hc : ¬ c = sep := fun hh => h (by simp [hh])
    have hrest : sep ∉ rest := fun hh => h (by simp [hh])
    simp [splitChar, hc, ih hrest, headCons]

theorem stripTagsGo_id : ∀ (fuel : Nat) (l : List Char), '<' ∉ l →
    stripTagsGo fuel l = l := by
  intro fuel
  induction fuel with
  | zero => intro l _; rfl
  | succ f ih =>
    intro l h
    cases l with
    | nil => rfl
    | cons c rest =>
      have hc : ¬ c = '<' := fun hh => h (by simp [hh])
      have hrest : '<' ∉ rest := fun hh => h (by simp [hh])
      simp [stripTagsGo, hc, ih rest hrest]

theorem stripTags_id (l : List Char) (h : '<' ∉ l) : stripTags l = l :=
  stripTagsGo_id l.length l h

theorem resolveLinksGo_id : ∀ (fuel : Nat) (l : List Char), '[' ∉ l →
    resolveLinksGo fuel l = l := by
  intro fuel
  induction fuel with
  | zero => intro l _; rfl
  | succ f ih =>
    intro l h
    cases l with
    | nil => rfl
    | cons c rest =>
      have hc : ¬ c = '[' := fun hh => h (by simp [hh])
      have hrest : '[' ∉ rest := fun hh => h (by simp [hh])
      simp [resolveLinksGo, hc, ih rest hrest]

theorem resolveLinks_id (l : List Char) (h : '[' ∉ l) : resolveLinks l = l :=
  resolveLinksGo_id l.length l h

theorem CleanContent_eq (x : List Char) :
    CleanContent x = trimGo (collapseWS (resolveLinks (stripTags x))) := by
  simp only [CleanContent]
  rw [splitChar_no_mem '\n' _ (newline_not_mem_collapseWS (resolveLinks (stripTags x)))]
  by_cases h : trimGo (collapseWS (resolveLinks (stripTags x))) = []
  · simp [processLines, h, joinSep, trimGo_nil]
  · simp [processLines, h, joinSep, trimGo_idem]

/-- C9 counterexample: `CleanContent` is not idempotent — on the nested-link
input `[[ [[a]] ]]` one pass yields `[[a ]]`, which still contains a
resolvable link, and a second pass yields `a`. -/
theorem CleanContent_not_idempotent :
    CleanContent (strL ("[[ [[a]] ]]")) = strL ("[[a ]]") ∧
    CleanContent (CleanContent (strL ("[[ [[a]] ]]"))) = strL ("a") ∧
    CleanContent (CleanContent (strL ("[[ [[a]] ]]"))) ≠
      CleanContent (strL ("[[ [[a]] ]]")) := by
  decide

/-- C9 (amended): `CleanContent` is idempotent on every input whose cleaned
form is free of markup openers — whenever `CleanContent x` contains no `<`
and no `[`, a second pass leaves it unchanged. (Nested bracketed links can
leave a resolvable link in the output, breaking idempotence in general.) -/
theorem CleanContent_idem_of_no_markup (x : List Char)
    (hlt : '<' ∉ CleanContent x) (hlb : '[' ∉ CleanContent x) :
    CleanContent (CleanContent x) = CleanContent x := by
  have hyz : CleanContent x = trimGo (collapseWS (resolveLinks (stripTags x))) :=
    CleanContent_eq x
  have hws : wsOnlySpace (CleanContent x) := by
    rw [hyz]; exact wsOnlySpace_trimGo _ (collapseWS_wsOnly _)
  have hadj : noAdjWS (CleanContent x) := by
    rw [hyz]; exact noAdjWS_trimGo _ (collapseWS_noAdj _)
  have hcy : collapseWS (CleanContent x) = CleanContent x :=
    collapseWS_fixed _ hws hadj
  have hty : trimGo (CleanContent x) = CleanContent x := by
    rw [hyz]; exact trimGo_idem _
  rw [CleanContent_eq (CleanContent x), stripTags_id _ hlt, resolveLinks_id _ hlb,
    hcy, hty]

/-- Witness for the amended C9 at an input whose cleaned form has no residual
markup: tags stripped, link resolved, whitespace collapsed, second pass a
no-op. -/
theorem CleanContent_idem_witness :
    CleanContent (CleanContent (strL ("Hello   world. [[Pacman|pacman]] <b>ok</b>"))) =
      CleanContent (strL ("Hello   world. [[Pacman|pacman]] <b>ok</b>")) :=
  CleanContent_idem_of_no_markup (strL ("Hello   world. [[Pacman|pacman]] <b>ok</b>"))
    (by decide) (by decide)
